import Mathlib

/-!
Layer normalisation on the GPU, `src/targets/gpu/device/layernorm.cpp`

A shallow embedding of the layer-normalisation device code of MIGraphX and of its host
entry point, with the properties of the specification proved about it, followed by the zero
filling `gpu_loop::set_zero` of `src/targets/gpu/loop.cpp`.

Modelling conventions.

* Exact arithmetic: the element type `T` is a field (a linearly ordered field in the
  theorems); `index_int` and `std::size_t` are `Nat`.
* A kernel template instantiated at a `value_type` is a Lean function taking the operations
  of that type as a `value_type T V` record; two records exist, one for a scalar
  (`scalar_type`) and one for `vec<T, N>` (`vec_type`).
* A device kernel is executed by the threads of a block in lock step.  A per-thread local
  variable of the C++ is a function of the local thread id `l`, and a block-wide collective
  (`block_reduce`) receives the suppliers of all threads of the block.
* Device buffers are functions `Nat → T` (element index to element); a kernel returns the
  stores it performs and the launcher applies them to the result buffer.
* `MIGRAPHX_THROW` and a failed `assert` end the host function with `Except.error`; undefined
  behaviour of the host code (a division by zero) is `none`.
* In `loop.cpp` the signed `int` and `int64_t` are `Int`, `std::size_t` arithmetic is `Nat`
  arithmetic modulo `2 ^ 64`, and undefined behaviour (a division by zero) is `none`.
* Helpers of the repository whose files are not part of the sources at hand
  (`reduce.hpp`, `fast_div.hpp`, `launch.hpp`, `visit.hpp`) are modelled from the
  specification; each such definition says so.
-/

namespace migraphx

/-! ## Vector abstraction -/

/-- The packed type `vec<T, N>`: `N` lanes of `T`. -/
abbrev vec (T : Type) (N : Nat) : Type := Fin N → T

/-- First overload `vec_transform(T x, F f)`: on a scalar, `return f(x);`. -/
def vec_transform {T : Type} (x : T) (f : T → T) : T :=
  f x

/-- Second overload `vec_transform(vec<T, N> x, F f)`:
`vec<T, N> y = x; for(k = 0; k < N; k++) y[k] = f(x[k]); return y;`. -/
def vec_transform_vec {T : Type} {N : Nat} (x : vec T N) (f : T → T) : vec T N :=
  (List.finRange N).foldl (fun y k => Function.update y k (f (x k))) x

/-- First overload `vec_reduce(T x, U, Op)`: on a scalar, `return x;` (the initial value and
the operator are ignored). -/
def vec_reduce {T U Op : Type} (x : T) (_init : U) (_op : Op) : T :=
  x

/-- Second overload `vec_reduce(vec<T, N> x, U init, Op op)`:
`T r = init; for(k = 0; k < N; k++) r = op(r, x[k]); return r;`. -/
def vec_reduce_vec {T : Type} {N : Nat} (x : vec T N) (init : T) (op : T → T → T) : T :=
  (List.finRange N).foldl (fun r k => op r (x k)) init

/-- The operations a kernel template uses on its `value_type` (`V`, with lanes in `T`):
`vector_size<V>`, the conversion of a scalar to `V`, the arithmetic operators on `V` and the
overloads of `vec_transform` and `vec_reduce` selected for `V`. -/
structure value_type (T V : Type) where
  /-- The constant `vector_size<V>`. -/
  vector_size : Nat
  /-- The conversion `value_type(s)` of a scalar. -/
  splat : T → V
  /-- The operator `+` on `V`. -/
  add : V → V → V
  /-- The operator `-` on `V`. -/
  sub : V → V → V
  /-- The operator `*` on `V`. -/
  mul : V → V → V
  /-- The overload of `vec_transform` selected for `V`. -/
  vec_transform : V → (T → T) → V
  /-- The overload of `vec_reduce` selected for `V`, called with a scalar initial value. -/
  vec_reduce : V → T → (T → T → T) → T

/-- The instantiation at a scalar: `vector_size<T> = 1`, the first overloads. -/
def scalar_type (T : Type) [Field T] : value_type T T where
  vector_size := 1
  splat := fun s => s
  add := fun a b => a + b
  sub := fun a b => a - b
  mul := fun a b => a * b
  vec_transform := fun x f => vec_transform x f
  vec_reduce := fun x init op => vec_reduce x init op

/-- The instantiation at `vec<T, N>`: `vector_size<vec<T, N>> = N`, lane-wise arithmetic, a
scalar converts to the vector with that scalar in every lane, the second overloads. -/
def vec_type (T : Type) [Field T] (N : Nat) : value_type T (vec T N) where
  vector_size := N
  splat := fun s _ => s
  add := fun a b k => a k + b k
  sub := fun a b k => a k - b k
  mul := fun a b k => a k * b k
  vec_transform := fun x f => vec_transform_vec x f
  vec_reduce := fun x init op => vec_reduce_vec x init op

/-! ## Block reduction -/

/-- A reduction functor of `reduce.hpp` (`sum`, `product`, ...): a generic call operator, used
both on two values of the `value_type` and on two scalars. -/
structure reduce_op (T V : Type) where
  /-- The operator applied to two `value_type` operands. -/
  on_value : V → V → V
  /-- The operator applied to two scalars. -/
  on_lane : T → T → T

/-- Modelled from the spec: the functor `sum` of `reduce.hpp` (not part of the sources),
the reduction operator "sum" with identity `0`: `x + y` at either type. -/
def sum {T V : Type} [Field T] (vt : value_type T V) : reduce_op T V where
  on_value := vt.add
  on_lane := fun a b => a + b

/-- Modelled from the spec: `block_reduce<N>(idx, op, init, n, f)` of `reduce.hpp` (not part of
the sources).  The spec, section 4.3: the supplier of a thread yields this thread's element and
is consulted only for `local_thread_id < n`; threads beyond `n` contribute nothing; the slots
are combined with `op` starting from the identity, and every thread of the group reads the
combined result.  `nlocal` is the number of threads of the group, `f l` is the supplier of
thread `l`; the slots are combined in thread order.  The template parameter `N` only sizes
the shared buffer and is not represented. -/
def block_reduce {V : Type} (nlocal : Nat) (op : V → V → V) (init : V) (n : Nat)
    (f : Nat → Nat → V) : V :=
  (List.range nlocal).foldl (fun acc l => if l < n then op acc (f l l) else acc) init

/-- The function `auto_block_reduce<N>(idx, op, init, n, f)`:
`auto r = block_reduce<N>(idx, op, init, n, f); return vec_reduce(r, 0, op);`. -/
def auto_block_reduce {T V : Type} [Field T] (vt : value_type T V) (nlocal : Nat)
    (op : reduce_op T V) (init : V) (n : Nat) (f : Nat → Nat → V) : T :=
  let r := block_reduce nlocal op.on_value init n f
  vt.vec_reduce r 0 op.on_lane

/-! ## Fast division and launch configuration -/

/-- Modelled from the spec: `encode_divisor` of `fast_div.hpp` (not part of the sources).  The
spec, section 4.2, fixes only that the encoding lets `n / divisor` be computed "using only
multiplication/shift operations"; the model is the multiply-shift reciprocal
`ceil(2^shift / divisor)`, with the shift width a parameter. -/
def encode_divisor (shift divisor : Nat) : Nat :=
  (2 ^ shift + divisor - 1) / divisor

/-- Modelled from the spec: `fast_div(dividend, encoded_divisor)` of `fast_div.hpp` (not part
of the sources): one multiplication and one right shift. -/
def fast_div (shift dividend encoded_divisor : Nat) : Nat :=
  (dividend * encoded_divisor) >>> shift

/-- The doubling loop of `compute_block_size`, run for at most `fuel` rounds. -/
def compute_block_size_loop (n max_block_size : Nat) : Nat → Nat → Nat
  | 0, block_size => block_size
  | fuel + 1, block_size =>
    if block_size < max_block_size ∧ block_size < n then
      compute_block_size_loop n max_block_size fuel (block_size * 2)
    else block_size

/-- Modelled from the spec: `compute_block_size(n, max_block_size)` of `reduce.hpp` (not part of
the sources).  The spec, sections 2 and 4.4: "a power-of-two-like value covering the dimension,
capped at the maximum", "the smallest supported group size ≥ reduction_elements and
≤ max_group_size": the power of two is doubled while it is below both `n` and the maximum.
The loop leaves within `max_block_size` rounds (`compute_block_size_loop_exit`). -/
def compute_block_size (n max_block_size : Nat) : Nat :=
  compute_block_size_loop n max_block_size max_block_size 1

/-! ## The normalisation kernel -/

/-- The literal `1e-12` of the kernel, in exact arithmetic. -/
def epsilon {T : Type} [Field T] : T :=
  1 / 1000000000000

/-- The device kernel `layernorm<MaxBlockSize>(i, idx, block_size_div, relements, input, output)`
run by the `nlocal` threads of execution group `group` in lock step.  Thread `l` of the group
has `idx.local = l` and the global index `i = group * nlocal + l` (spec, section 4.4: total
thread count `group_count * group_size`, one execution group per normalisation group).  The
result lists the calls `output(input_idx, value)` the threads make, in thread order. -/
def layernorm_kernel {T V : Type} [Field T] (vt : value_type T V) (shift : Nat)
    (rsqrt : T → T) (nlocal group block_size_div relements : Nat) (input : Nat → V) :
    List (Nat × V) :=
  let relements_v := relements / vt.vector_size
  let i := fun l => group * nlocal + l
  let out_idx := fun l => fast_div shift (i l) block_size_div
  let base_idx := fun l => out_idx l * relements_v
  let input_idx := fun l => base_idx l + l
  let in_range := fun l => decide (l < relements_v)
  let mean := fun (z : Nat → V) =>
    auto_block_reduce vt nlocal (sum vt) (vt.splat 0) relements_v (fun l _ => z l)
      / (relements : T)
  -- m = x - mean(x)
  let x := fun l => if in_range l then input (input_idx l) else vt.splat 0
  let m := fun l => vt.sub (x l) (vt.splat (mean x))
  -- mean(m ^ 2) + 1e-12
  let r := fun (_ : Nat) => vt.splat (mean (fun l => vt.mul (m l) (m l)) + epsilon)
  -- m * rsqrt(mean(m ^ 2) + 1e-12)
  (List.range nlocal).filterMap fun l =>
    if in_range l then some (input_idx l, vt.mul (m l) (vt.vec_transform (r l) rsqrt))
    else none

/-! ## Host side: buffers, launches and dispatch -/

/-- A shape: the lengths of its dimensions. -/
structure shape where
  /-- The lengths `lens()`. -/
  lens : List Nat

/-- The number of elements `elements()` of a shape: the product of its lengths. -/
def shape.elements (s : shape) : Nat :=
  s.lens.prod

/-- An `argument`: a shape and the device buffer it describes. -/
structure argument (T : Type) where
  /-- The shape `get_shape()`. -/
  get_shape : shape
  /-- The buffer `data()`, element index to element. -/
  data : Nat → T

/-- One kernel launch enqueued on a stream: `gs_launch(stream, n, nlocal)`. -/
structure launch_record where
  /-- The total number of threads. -/
  n : Nat
  /-- The number of threads of one execution group. -/
  nlocal : Nat
deriving DecidableEq

/-- The device as the host entry point sees it: the launches enqueued on the `hipStream_t`
(oldest first) and the contents of the result buffer. -/
structure device_state (T : Type) where
  /-- The kernels enqueued on the stream. -/
  stream : List launch_record
  /-- The contents of the result buffer. -/
  result : Nat → T

/-- Modelled from the spec: `gs_launch(stream, n, nlocal)(f)` of `launch.hpp` (not part of the
sources).  The spec, section 4.4: "total thread count = group_count * group_size ... each
execution group processes exactly one normalization group"; section 5: groups are independent.
The launch is recorded on the stream and the `n / nlocal` execution groups run the kernel,
`f group` being the effect of one group on the result buffer. -/
def gs_launch {T : Type} (n nlocal : Nat) (f : Nat → (Nat → T) → (Nat → T))
    (d : device_state T) : device_state T where
  stream := d.stream ++ [{ n := n, nlocal := nlocal }]
  result := (List.range (n / nlocal)).foldl (fun out group => f group out) d.result

/-- Modelled from the spec: the view `hip_vec_visit_all<N>` of `visit.hpp` (not part of the
sources) gives of a buffer: "elements processed in packed groups of" `N`; packed element `p`
holds the scalars `N * p, ..., N * p + N - 1` in its lanes. -/
def as_vec {T : Type} (N : Nat) (data : Nat → T) : Nat → vec T N :=
  fun p k => data (N * p + k)

/-- The store `output.data()[input_idx] = x` of the scalar launcher. -/
def store {T : Type} (out : Nat → T) (input_idx : Nat) (x : T) : Nat → T :=
  fun a => if a = input_idx then x else out a

/-- The store `output.data()[input_idx] = x` of the vector launcher, on the packed view of the
buffer: lane `k` of `x` goes to the scalar `N * input_idx + k`. -/
def store_vec {T : Type} {N : Nat} (out : Nat → T) (input_idx : Nat) (x : vec T N) : Nat → T :=
  fun a => if h : a / N = input_idx ∧ 0 < N then x ⟨a % N, Nat.mod_lt a h.2⟩ else out a

/-- The device lambda launched by `layernorm_impl`, run by execution group `group`: the kernel
with `input.data()[input_idx]` as input and `output.data()[input_idx] = x` as output. -/
def layernorm_impl_group {T : Type} [Field T] (shift : Nat) (rsqrt : T → T)
    (block_size block_size_div relements : Nat) (input : Nat → T) (group : Nat)
    (output : Nat → T) : Nat → T :=
  (layernorm_kernel (scalar_type T) shift rsqrt block_size group block_size_div relements
    input).foldl (fun out w => store out w.1 w.2) output

/-- The device lambda launched by `layernorm_vec_impl<N>`, run by execution group `group`, on
the packed views of the two buffers. -/
def layernorm_vec_impl_group {T : Type} [Field T] (N shift : Nat) (rsqrt : T → T)
    (block_size block_size_div relements : Nat) (input : Nat → T) (group : Nat)
    (output : Nat → T) : Nat → T :=
  (layernorm_kernel (vec_type T N) shift rsqrt block_size group block_size_div relements
    (as_vec N input)).foldl (fun out w => store_vec out w.1 w.2) output

/-- The launcher `layernorm_vec_impl<N>(stream, result, arg1, nelements, relements)`. -/
def layernorm_vec_impl {T : Type} [Field T] (N shift : Nat) (rsqrt : T → T)
    (arg1 : argument T) (nelements relements : Nat) (d : device_state T) :
    Except String Unit × device_state T :=
  let relements_v := relements / N
  let max_block_size := 256
  let block_size := compute_block_size relements_v max_block_size
  let block_size_div := encode_divisor shift block_size
  if relements_v ≤ block_size then
    (.ok (), gs_launch (nelements * block_size) block_size
      (layernorm_vec_impl_group N shift rsqrt block_size block_size_div relements arg1.data) d)
  else (.error "Assertion relements_v <= block_size failed", d)

/-- The launcher `layernorm_impl(stream, result, arg1, nelements, relements)`. -/
def layernorm_impl {T : Type} [Field T] (shift : Nat) (rsqrt : T → T)
    (arg1 : argument T) (nelements relements : Nat) (d : device_state T) :
    Except String Unit × device_state T :=
  let max_block_size := 256
  let block_size := compute_block_size relements max_block_size
  let block_size_div := encode_divisor shift block_size
  if relements ≤ block_size then
    (.ok (), gs_launch (nelements * block_size) block_size
      (layernorm_impl_group shift rsqrt block_size block_size_div relements arg1.data) d)
  else (.error "Assertion relements <= block_size failed", d)

/-- The host entry point `layernorm(stream, result, arg1)`.  The stream and the contents of
`result` are the device state `d`; `result_shape` is `result.get_shape()`.  The last length
`lens().back()` of a shape without dimensions and the `std::size_t` quotient
`elements() / relements` by `relements = 0` are undefined in C++: the result is then `none`
(the quotient is computed before the dispatch). -/
def layernorm {T : Type} [Field T] (shift : Nat) (rsqrt : T → T) (result_shape : shape)
    (arg1 : argument T) (d : device_state T) :
    Option (Except String Unit × device_state T) :=
  let relements := arg1.get_shape.lens.getLastD 0
  if relements = 0 then none
  else
    let nelements := result_shape.elements / relements
    if relements % 4 = 0 then
      some (layernorm_vec_impl 4 shift rsqrt arg1 nelements relements d)
    else if relements < 256 then
      some (layernorm_impl shift rsqrt arg1 nelements relements d)
    else
      some (.error "No kernel for layernorm", d)

end migraphx

/-! ## The specification's two-pass normalisation -/

namespace migraphx

/-- The spec's `mean(x)` of a row `x_0 .. x_{R-1}`: the sum divided by the element count. -/
def row_mean {T : Type} [Field T] (R : Nat) (x : Nat → T) : T :=
  (∑ i in Finset.range R, x i) / (R : T)

/-- The spec's `mean((x - mean(x))^2)` of a row. -/
def row_variance {T : Type} [Field T] (R : Nat) (x : Nat → T) : T :=
  (∑ i in Finset.range R, (x i - row_mean R x) * (x i - row_mean R x)) / (R : T)

/-- The spec's normalised element `(x_j - mu) * rsqrt(s + 1e-12)` of a row. -/
def normalized {T : Type} [Field T] (rsqrt : T → T) (R : Nat) (x : Nat → T) (j : Nat) : T :=
  (x j - row_mean R x) * rsqrt (row_variance R x + epsilon)

/-! ## The two instantiations side by side -/

/-- The kernel instantiations the entry point chooses between: `layernorm_impl` (scalar) and
`layernorm_vec_impl<4>` (4-wide). -/
inductive instantiation where
  | scalar
  | vec4
deriving DecidableEq

/-- The vector width of an instantiation: `vector_size<value_type>`. -/
def instantiation.vector_width : instantiation → Nat
  | .scalar => 1
  | .vec4 => 4

/-- An instantiation serves a reduction dimension with groups of `block_size` threads: the
scalar one when `relements ≤ block_size`, the 4-wide one when `relements % 4 = 0` and
`relements / 4 ≤ block_size`. -/
def instantiation.serves (k : instantiation) (relements block_size : Nat) : Prop :=
  match k with
  | .scalar => relements ≤ block_size
  | .vec4 => relements % 4 = 0 ∧ relements / 4 ≤ block_size

instance (k : instantiation) (relements block_size : Nat) :
    Decidable (k.serves relements block_size) := by
  cases k <;> unfold instantiation.serves <;> infer_instance

/-- The effect of one execution group of an instantiation on the result buffer. -/
def instantiation.run_group {T : Type} [Field T] (k : instantiation) (shift : Nat)
    (rsqrt : T → T) (block_size block_size_div relements : Nat) (input : Nat → T)
    (group : Nat) (output : Nat → T) : Nat → T :=
  match k with
  | .scalar =>
    layernorm_impl_group shift rsqrt block_size block_size_div relements input group output
  | .vec4 =>
    layernorm_vec_impl_group 4 shift rsqrt block_size block_size_div relements input group output

/-! ## Zero filling of the loop operator: `src/targets/gpu/loop.cpp` -/

/-- The conversion of an `int` or `int64_t` to the unsigned 64-bit `std::size_t` that C++
applies in arithmetic mixing the two: the value modulo `2 ^ 64`. -/
def to_size_t (i : Int) : Nat :=
  (i % 2 ^ 64).toNat

/-- An output `argument` of the loop, as `set_zero` uses it: the size `get_shape().bytes()` and
the bytes behind the `char*` pointer `data()`, byte offset to byte value. -/
structure loop_output where
  /-- The size `get_shape().bytes()`. -/
  bytes : Nat
  /-- The bytes at `data()`. -/
  data : Nat → Nat

/-- The call `hipMemset(data + offset, value, size_bytes)` of the HIP runtime (an external
library): the `size_bytes` bytes from `data + offset` on are set to `value`. -/
def hipMemset (data : Nat → Nat) (offset value size_bytes : Nat) : Nat → Nat :=
  fun a => if offset ≤ a ∧ a < offset + size_bytes then value else data a

/-- The struct `gpu_loop`. -/
structure gpu_loop where
  /-- The member `int64_t max_iter_num`. -/
  max_iter_num : Int

/-- The `for` loop of `gpu_loop::set_zero` over the outputs:
`auto size = s.bytes() / max_iter_num; hipMemset(out.data() + iter * size, 0, size * elem_num);`
in `std::size_t` arithmetic.  A division by zero is undefined: the result is `none`. -/
def gpu_loop.set_zero_outputs (self : gpu_loop) (elem_num iter : Int) :
    List loop_output → Option (List loop_output)
  | [] => some []
  | out :: rest =>
    if to_size_t self.max_iter_num = 0 then none
    else
      let size := out.bytes / to_size_t self.max_iter_num
      match gpu_loop.set_zero_outputs self elem_num iter rest with
      | none => none
      | some zeroed =>
        some ({ out with
          data := hipMemset out.data (to_size_t iter * size % 2 ^ 64) 0
            (size * to_size_t elem_num % 2 ^ 64) } :: zeroed)

/-- The member function `gpu_loop::set_zero(concatenated_outputs, iter)`; the result is the
outputs after the call. -/
def gpu_loop.set_zero (self : gpu_loop) (concatenated_outputs : List loop_output)
    (iter : Int) : Option (List loop_output) :=
  if iter ≥ self.max_iter_num then some concatenated_outputs
  else
    let elem_num := self.max_iter_num - iter
    self.set_zero_outputs elem_num iter concatenated_outputs

/-! ## Auxiliary facts about the loops -/

theorem foldl_range_ite_add {V : Type} [AddCommMonoid V] (nlocal n : Nat) (f : Nat → V)
    (init : V) :
    (List.range nlocal).foldl (fun acc l => if l < n then acc + f l else acc) init
      = init + ∑ l in Finset.range (min n nlocal), f l := by
  induction nlocal with
  | zero => simp
  | succ k ih =>
    rw [List.range_succ, List.foldl_append, ih]
    by_cases h : k < n
    · have h1 : min n (k + 1) = min n k + 1 := by omega
      have h2 : min n k = k := by omega
      simp [h, h1, Finset.sum_range_succ, h2, add_assoc]
    · have h1 : min n (k + 1) = min n k := by omega
      simp [h, h1]

theorem block_reduce_add {V : Type} [AddCommMonoid V] (nlocal n : Nat) (f : Nat → Nat → V)
    (h : n ≤ nlocal) :
    block_reduce nlocal (fun a b => a + b) 0 n f = ∑ l in Finset.range n, f l l := by
  unfold block_reduce
  rw [foldl_range_ite_add nlocal n (fun l => f l l) 0, zero_add, Nat.min_eq_left h]

theorem vec_reduce_vec_add {T : Type} [AddCommMonoid T] {N : Nat} (x : vec T N) :
    vec_reduce_vec x 0 (fun a b => a + b) = ∑ k, x k := by
  unfold vec_reduce_vec
  rw [Fin.sum_univ_def, List.sum_eq_foldl, List.foldl_map]

theorem foldl_update_apply {T : Type} {N : Nat} (f : T → T) (x : vec T N) (L : List (Fin N))
    (y : vec T N) (k : Fin N) :
    (L.foldl (fun y k => Function.update y k (f (x k))) y) k
      = if k ∈ L then f (x k) else y k := by
  induction L generalizing y with
  | nil => simp
  | cons a L ih =>
    rw [List.foldl_cons, ih]
    by_cases hk : k ∈ L
    · simp [hk]
    · by_cases hka : k = a
      · subst hka
        simp [hk]
      · simp [hk, hka, Function.update_noteq hka]

theorem vec_transform_vec_apply {T : Type} {N : Nat} (x : vec T N) (f : T → T) (k : Fin N) :
    vec_transform_vec x f k = f (x k) := by
  unfold vec_transform_vec
  rw [foldl_update_apply]
  simp [List.mem_finRange]

theorem filterMap_range_ite {β : Type} (nlocal n : Nat) (g g' : Nat → β) (h : n ≤ nlocal)
    (hg : ∀ l, l < n → g l = g' l) :
    (List.range nlocal).filterMap (fun l => if decide (l < n) = true then some (g l) else none)
      = (List.range n).map g' := by
  induction nlocal generalizing n with
  | zero =>
    have : n = 0 := by omega
    subst this
    simp
  | succ k ih =>
    rw [List.range_succ, List.filterMap_append]
    by_cases hk : n ≤ k
    · rw [ih n hk hg]
      have : ¬ k < n := by omega
      simp [this]
    · have hn : n = k + 1 := by omega
      subst hn
      have e : (List.range k).filterMap
          (fun l => if decide (l < k + 1) = true then some (g l) else none)
          = (List.range k).filterMap
          (fun l => if decide (l < k) = true then some (g l) else none) := by
        apply List.filterMap_congr
        intro l hl
        have := List.mem_range.mp hl
        simp [this, Nat.lt_succ_of_lt this]
      rw [e, ih k le_rfl (fun l hl => hg l (Nat.lt_succ_of_lt hl)), List.range_succ,
        List.map_append]
      simp [hg k (Nat.lt_succ_self k)]

theorem auto_block_reduce_scalar {T : Type} [Field T] (nlocal n : Nat) (f : Nat → Nat → T)
    (h : n ≤ nlocal) :
    auto_block_reduce (scalar_type T) nlocal (sum (scalar_type T)) ((scalar_type T).splat 0) n f
      = ∑ l ∈ Finset.range n, f l l := by
  unfold auto_block_reduce
  simp only [scalar_type, sum, vec_reduce]
  exact block_reduce_add nlocal n f h

theorem auto_block_reduce_vec {T : Type} [Field T] (N nlocal n : Nat)
    (f : Nat → Nat → vec T N) (h : n ≤ nlocal) :
    auto_block_reduce (vec_type T N) nlocal (sum (vec_type T N)) ((vec_type T N).splat 0) n f
      = ∑ l ∈ Finset.range n, ∑ k, f l l k := by
  unfold auto_block_reduce
  simp only [vec_type, sum]
  have e := block_reduce_add nlocal n f h
  have e2 : block_reduce nlocal (fun (a b : vec T N) k => a k + b k) (fun _ => 0) n f
      = ∑ l ∈ Finset.range n, f l l := e
  rw [e2, vec_reduce_vec_add, Finset.sum_comm]
  simp [Finset.sum_apply]

theorem sum_range_lanes {T : Type} [AddCommMonoid T] (N n : Nat) (f : Nat → T) :
    ∑ l ∈ Finset.range n, ∑ k : Fin N, f (N * l + k) = ∑ j ∈ Finset.range (N * n), f j := by
  induction n with
  | zero => simp
  | succ m ih =>
    rw [Finset.sum_range_succ, ih, Nat.mul_succ, Finset.sum_range_add,
      Fin.sum_univ_eq_sum_range (fun k => f (N * m + k)) N]

/-- The stores of the scalar kernel: under an exact group index and `relements ≤ nlocal`,
thread `l < relements` stores the normalised element `l` of row `group`. -/
theorem layernorm_kernel_scalar {T : Type} [Field T] (shift : Nat) (rsqrt : T → T)
    (nlocal group block_size_div relements : Nat) (input : Nat → T)
    (hdiv : ∀ l, l < nlocal → fast_div shift (group * nlocal + l) block_size_div = group)
    (hR : relements ≤ nlocal) :
    layernorm_kernel (scalar_type T) shift rsqrt nlocal group block_size_div relements input
      = (List.range relements).map (fun l => (group * relements + l,
          normalized rsqrt relements (fun j => input (group * relements + j)) l)) := by
  unfold layernorm_kernel
  have hv : relements / (scalar_type T).vector_size = relements := by
    simp [scalar_type]
  simp only [hv]
  apply filterMap_range_ite nlocal relements _ _ hR
  intro l hl
  have hx : ∀ j, j < relements →
      (if decide (j < relements) = true
        then input (fast_div shift (group * nlocal + j) block_size_div * relements + j)
        else (scalar_type T).splat 0) = input (group * relements + j) := by
    intro j hj
    simp [hj, hdiv j (lt_of_lt_of_le hj hR)]
  rw [auto_block_reduce_scalar nlocal relements _ hR,
    auto_block_reduce_scalar nlocal relements _ hR]
  have hmean : (∑ j ∈ Finset.range relements,
      (if decide (j < relements) = true
        then input (fast_div shift (group * nlocal + j) block_size_div * relements + j)
        else (scalar_type T).splat 0)) / (relements : T)
      = row_mean relements (fun j => input (group * relements + j)) := by
    unfold row_mean
    congr 1
    exact Finset.sum_congr rfl (fun j hj => hx j (Finset.mem_range.mp hj))
  rw [hmean]
  have hvar : (∑ j ∈ Finset.range relements,
      (scalar_type T).mul
        ((scalar_type T).sub
          (if decide (j < relements) = true
            then input (fast_div shift (group * nlocal + j) block_size_div * relements + j)
            else (scalar_type T).splat 0)
          ((scalar_type T).splat (row_mean relements (fun j => input (group * relements + j)))))
        ((scalar_type T).sub
          (if decide (j < relements) = true
            then input (fast_div shift (group * nlocal + j) block_size_div * relements + j)
            else (scalar_type T).splat 0)
          ((scalar_type T).splat (row_mean relements (fun j => input (group * relements + j))))))
        / (relements : T)
      = row_variance relements (fun j => input (group * relements + j)) := by
    unfold row_variance
    congr 1
    apply Finset.sum_congr rfl
    intro j hj
    rw [hx j (Finset.mem_range.mp hj)]
    rfl
  rw [hvar, hx l hl, hdiv l (lt_of_lt_of_le hl hR)]
  rfl

/-- The stores of the vector kernel: under an exact group index, `relements` a multiple of `N`
and `relements / N ≤ nlocal`, thread `l < relements / N` stores the packed value whose lane `k`
is the normalised element `N * l + k` of row `group`. -/
theorem layernorm_kernel_vec {T : Type} [Field T] (N shift : Nat) (rsqrt : T → T)
    (nlocal group block_size_div relements : Nat) (input : Nat → T)
    (hdiv : ∀ l, l < nlocal → fast_div shift (group * nlocal + l) block_size_div = group)
    (hN : relements % N = 0) (hR : relements / N ≤ nlocal) :
    layernorm_kernel (vec_type T N) shift rsqrt nlocal group block_size_div relements
        (as_vec N input)
      = (List.range (relements / N)).map (fun l => (group * (relements / N) + l,
          fun k : Fin N =>
            normalized rsqrt relements (fun j => input (group * relements + j)) (N * l + k))) := by
  unfold layernorm_kernel
  have hv : relements / (vec_type T N).vector_size = relements / N := rfl
  simp only [hv]
  have hmul : N * (relements / N) = relements := Nat.mul_div_cancel' (Nat.dvd_of_mod_eq_zero hN)
  apply filterMap_range_ite nlocal (relements / N) _ _ hR
  intro l hl
  have hx : ∀ j, j < relements / N →
      (if decide (j < relements / N) = true
        then as_vec N input
          (fast_div shift (group * nlocal + j) block_size_div * (relements / N) + j)
        else (vec_type T N).splat 0)
        = fun k : Fin N => input (group * relements + (N * j + k)) := by
    intro j hj
    simp only [hj, decide_True, if_true, hdiv j (lt_of_lt_of_le hj hR)]
    funext k
    unfold as_vec
    congr 1
    calc N * (group * (relements / N) + j) + k
        = group * (N * (relements / N)) + (N * j + k) := by ring
      _ = group * relements + (N * j + k) := by rw [hmul]
  rw [auto_block_reduce_vec N nlocal (relements / N) _ hR,
    auto_block_reduce_vec N nlocal (relements / N) _ hR]
  have hmean : (∑ j ∈ Finset.range (relements / N), ∑ k : Fin N,
      (if decide (j < relements / N) = true
        then as_vec N input
          (fast_div shift (group * nlocal + j) block_size_div * (relements / N) + j)
        else (vec_type T N).splat 0) k) / (relements : T)
      = row_mean relements (fun j => input (group * relements + j)) := by
    unfold row_mean
    congr 1
    have e := sum_range_lanes N (relements / N) (fun j => input (group * relements + j))
    rw [hmul] at e
    rw [← e]
    apply Finset.sum_congr rfl
    intro j hj
    rw [hx j (Finset.mem_range.mp hj)]
  rw [hmean]
  have hvar : (∑ j ∈ Finset.range (relements / N), ∑ k : Fin N,
      (vec_type T N).mul
        ((vec_type T N).sub
          (if decide (j < relements / N) = true
            then as_vec N input
              (fast_div shift (group * nlocal + j) block_size_div * (relements / N) + j)
            else (vec_type T N).splat 0)
          ((vec_type T N).splat (row_mean relements (fun j => input (group * relements + j)))))
        ((vec_type T N).sub
          (if decide (j < relements / N) = true
            then as_vec N input
              (fast_div shift (group * nlocal + j) block_size_div * (relements / N) + j)
            else (vec_type T N).splat 0)
          ((vec_type T N).splat (row_mean relements (fun j => input (group * relements + j)))))
        k) / (relements : T)
      = row_variance relements (fun j => input (group * relements + j)) := by
    unfold row_variance
    congr 1
    have e := sum_range_lanes N (relements / N)
      (fun i => (input (group * relements + i)
          - row_mean relements (fun j => input (group * relements + j)))
        * (input (group * relements + i)
          - row_mean relements (fun j => input (group * relements + j))))
    rw [hmul] at e
    rw [← e]
    apply Finset.sum_congr rfl
    intro j hj
    rw [hx j (Finset.mem_range.mp hj)]
    rfl
  rw [hvar, hx l hl, hdiv l (lt_of_lt_of_le hl hR)]
  congr 1
  funext k
  simp only [vec_type, vec_transform_vec_apply, normalized]

theorem store_apply {T : Type} (out : Nat → T) (i : Nat) (x : T) (a : Nat) :
    store out i x a = if a = i then x else out a := rfl

theorem store_vec_apply {T : Type} {N : Nat} (out : Nat → T) (i : Nat) (x : vec T N) (a : Nat) :
    store_vec out i x a
      = if h : a / N = i ∧ 0 < N then x ⟨a % N, Nat.mod_lt a h.2⟩ else out a := rfl

theorem foldl_store_range {T : Type} (base n : Nat) (v : Nat → T) (out : Nat → T) (a : Nat) :
    ((List.range n).map (fun l => (base + l, v l))).foldl (fun out w => store out w.1 w.2) out a
      = if base ≤ a ∧ a < base + n then v (a - base) else out a := by
  induction n with
  | zero =>
    have : ¬ (base ≤ a ∧ a < base) := by omega
    simp [this]
  | succ m ih =>
    rw [List.range_succ, List.map_append, List.foldl_append]
    simp only [List.map_cons, List.map_nil, List.foldl_cons, List.foldl_nil]
    rw [store_apply]
    by_cases h : a = base + m
    · subst h
      have : base ≤ base + m ∧ base + m < base + (m + 1) := by omega
      simp [this]
    · rw [if_neg h, ih]
      by_cases h2 : base ≤ a ∧ a < base + m
      · have : base ≤ a ∧ a < base + (m + 1) := by omega
        rw [if_pos h2, if_pos this]
      · have : ¬ (base ≤ a ∧ a < base + (m + 1)) := by omega
        rw [if_neg h2, if_neg this]

theorem foldl_store_vec_range {T : Type} {N : Nat} (hN : 0 < N) (base n : Nat)
    (v : Nat → vec T N) (out : Nat → T) (a : Nat) :
    ((List.range n).map (fun l => (base + l, v l))).foldl
        (fun out w => store_vec out w.1 w.2) out a
      = if base ≤ a / N ∧ a / N < base + n then v (a / N - base) ⟨a % N, Nat.mod_lt a hN⟩
        else out a := by
  induction n with
  | zero =>
    have : ¬ (base ≤ a / N ∧ a / N < base) := by omega
    simp [this]
  | succ m ih =>
    rw [List.range_succ, List.map_append, List.foldl_append]
    simp only [List.map_cons, List.map_nil, List.foldl_cons, List.foldl_nil]
    rw [store_vec_apply]
    by_cases h : a / N = base + m
    · have h1 : a / N = base + m ∧ 0 < N := ⟨h, hN⟩
      have h2 : base ≤ a / N ∧ a / N < base + (m + 1) := by omega
      have h3 : a / N - base = m := by omega
      rw [dif_pos h1, if_pos h2, h3]
    · have h1 : ¬ (a / N = base + m ∧ 0 < N) := fun c => h c.1
      rw [dif_neg h1, ih]
      by_cases h2 : base ≤ a / N ∧ a / N < base + m
      · have : base ≤ a / N ∧ a / N < base + (m + 1) := by omega
        rw [if_pos h2, if_pos this]
      · have : ¬ (base ≤ a / N ∧ a / N < base + (m + 1)) := by omega
        rw [if_neg h2, if_neg this]

/-- The result buffer after execution group `group` of the scalar launcher has run. -/
theorem layernorm_impl_group_apply {T : Type} [Field T] (shift : Nat) (rsqrt : T → T)
    (block_size block_size_div relements : Nat) (input : Nat → T) (group : Nat)
    (output : Nat → T)
    (hdiv : ∀ l, l < block_size →
      fast_div shift (group * block_size + l) block_size_div = group)
    (hR : relements ≤ block_size) (a : Nat) :
    layernorm_impl_group shift rsqrt block_size block_size_div relements input group output a
      = if group * relements ≤ a ∧ a < group * relements + relements
        then normalized rsqrt relements (fun j => input (group * relements + j))
          (a - group * relements)
        else output a := by
  unfold layernorm_impl_group
  rw [layernorm_kernel_scalar shift rsqrt block_size group block_size_div relements input hdiv hR]
  exact foldl_store_range (group * relements) relements _ output a

/-- The result buffer after execution group `group` of the vector launcher has run. -/
theorem layernorm_vec_impl_group_apply {T : Type} [Field T] (N shift : Nat) (rsqrt : T → T)
    (block_size block_size_div relements : Nat) (input : Nat → T) (group : Nat)
    (output : Nat → T)
    (hdiv : ∀ l, l < block_size →
      fast_div shift (group * block_size + l) block_size_div = group)
    (hpos : 0 < N) (hN : relements % N = 0) (hR : relements / N ≤ block_size) (a : Nat) :
    layernorm_vec_impl_group N shift rsqrt block_size block_size_div relements input group
        output a
      = if group * relements ≤ a ∧ a < group * relements + relements
        then normalized rsqrt relements (fun j => input (group * relements + j))
          (a - group * relements)
        else output a := by
  unfold layernorm_vec_impl_group
  rw [layernorm_kernel_vec N shift rsqrt block_size group block_size_div relements input hdiv
    hN hR]
  rw [foldl_store_vec_range hpos (group * (relements / N)) (relements / N) _ output a]
  have hmul : N * (relements / N) = relements := Nat.mul_div_cancel' (Nat.dvd_of_mod_eq_zero hN)
  have hbase : N * (group * (relements / N)) = group * relements := by
    calc N * (group * (relements / N)) = group * (N * (relements / N)) := by ring
      _ = group * relements := by rw [hmul]
  have hda : N * (a / N) + a % N = a := Nat.div_add_mod a N
  have hmod : a % N < N := Nat.mod_lt a hpos
  by_cases h : group * (relements / N) ≤ a / N ∧ a / N < group * (relements / N) + relements / N
  · have h1 : N * (group * (relements / N)) ≤ N * (a / N) := Nat.mul_le_mul_left N h.1
    have h2 : N * (a / N + 1) ≤ N * (group * (relements / N) + relements / N) :=
      Nat.mul_le_mul_left N h.2
    rw [Nat.mul_add, Nat.mul_add, hbase, hmul, Nat.mul_one] at h2
    rw [hbase] at h1
    have h3 : group * relements ≤ a ∧ a < group * relements + relements := by omega
    rw [if_pos h, if_pos h3]
    congr 1
    show N * (a / N - group * (relements / N)) + a % N = a - group * relements
    rw [Nat.mul_sub, hbase]
    omega
  · have h3 : ¬ (group * relements ≤ a ∧ a < group * relements + relements) := by
      intro c
      apply h
      constructor
      · rw [Nat.le_div_iff_mul_le hpos, Nat.mul_comm, hbase]
        exact c.1
      · rw [Nat.div_lt_iff_lt_mul hpos, Nat.add_mul, Nat.mul_comm _ N, Nat.mul_comm _ N, hbase,
          hmul]
        exact c.2
    rw [if_neg h, if_neg h3]

/-! ## Launch configuration -/

theorem compute_block_size_loop_leaves (n max_block_size : Nat) :
    ∀ fuel block_size, 1 ≤ block_size → max_block_size ≤ block_size + fuel →
      ¬ (compute_block_size_loop n max_block_size fuel block_size < max_block_size
        ∧ compute_block_size_loop n max_block_size fuel block_size < n) := by
  intro fuel
  induction fuel with
  | zero =>
    intro b _ hfuel
    simp only [compute_block_size_loop]
    omega
  | succ k ih =>
    intro b hb hfuel
    simp only [compute_block_size_loop]
    by_cases h : b < max_block_size ∧ b < n
    · rw [if_pos h]
      exact ih (b * 2) (by omega) (by omega)
    · rw [if_neg h]
      exact h

/-- The loop of `compute_block_size` has left by its own condition when the fuel
`max_block_size` is used up: the result is no longer below both bounds. -/
theorem compute_block_size_loop_exit (n max_block_size : Nat) :
    ¬ (compute_block_size n max_block_size < max_block_size
      ∧ compute_block_size n max_block_size < n) :=
  compute_block_size_loop_leaves n max_block_size max_block_size 1 le_rfl (by omega)

theorem le_compute_block_size (n max_block_size : Nat) (h : n ≤ max_block_size) :
    n ≤ compute_block_size n max_block_size := by
  have := compute_block_size_loop_exit n max_block_size
  omega

theorem compute_block_size_loop_pos (n max_block_size : Nat) :
    ∀ fuel block_size, 1 ≤ block_size →
      1 ≤ compute_block_size_loop n max_block_size fuel block_size := by
  intro fuel
  induction fuel with
  | zero =>
    intro b hb
    simpa only [compute_block_size_loop] using hb
  | succ k ih =>
    intro b hb
    simp only [compute_block_size_loop]
    by_cases h : b < max_block_size ∧ b < n
    · rw [if_pos h]
      exact ih (b * 2) (by omega)
    · rw [if_neg h]
      exact hb

theorem compute_block_size_pos (n max_block_size : Nat) :
    1 ≤ compute_block_size n max_block_size :=
  compute_block_size_loop_pos n max_block_size max_block_size 1 le_rfl

theorem compute_block_size_loop_dvd (n : Nat) :
    ∀ fuel block_size, block_size ∣ 256 →
      compute_block_size_loop n 256 fuel block_size ∣ 256 := by
  intro fuel
  induction fuel with
  | zero =>
    intro b hb
    simpa only [compute_block_size_loop] using hb
  | succ k ih =>
    intro b hb
    simp only [compute_block_size_loop]
    by_cases h : b < 256 ∧ b < n
    · rw [if_pos h]
      apply ih
      have h8 : b ∣ 2 ^ 8 := hb
      obtain ⟨i, hi, rfl⟩ := (Nat.dvd_prime_pow Nat.prime_two).mp h8
      have hi8 : i < 8 := by
        rcases Nat.lt_or_ge i 8 with c | c
        · exact c
        · have : i = 8 := le_antisymm hi c
          subst this
          omega
      have : 2 ^ i * 2 = 2 ^ (i + 1) := by ring
      rw [this]
      exact pow_dvd_pow 2 hi8
    · rw [if_neg h]
      exact hb

/-- The cap: with `max_block_size = 256` the block size never exceeds 256. -/
theorem compute_block_size_le (n : Nat) : compute_block_size n 256 ≤ 256 :=
  Nat.le_of_dvd (by norm_num) (compute_block_size_loop_dvd n 256 1 (by norm_num))

/-! ## Fast division -/

theorem encode_divisor_bounds (shift d : Nat) (hd : 1 ≤ d) :
    2 ^ shift ≤ encode_divisor shift d * d
      ∧ encode_divisor shift d * d ≤ 2 ^ shift + d - 1 := by
  unfold encode_divisor
  have h1 := Nat.div_mul_le_self (2 ^ shift + d - 1) d
  have h2 := Nat.div_add_mod (2 ^ shift + d - 1) d
  have h3 := Nat.mod_lt (2 ^ shift + d - 1) hd
  rw [Nat.mul_comm] at h2
  constructor
  · omega
  · exact h1

/-- The multiply-shift quotient is the integer quotient as long as `n * d ≤ 2 ^ shift`. -/
theorem fast_div_exact (shift d n : Nat) (hd : 1 ≤ d) (hn : n * d ≤ 2 ^ shift) :
    fast_div shift n (encode_divisor shift d) = n / d := by
  unfold fast_div
  rw [Nat.shiftRight_eq_div_pow]
  obtain ⟨hlo, hhi⟩ := encode_divisor_bounds shift d hd
  generalize encode_divisor shift d = e at hlo hhi
  generalize hp : 2 ^ shift = p at hlo hhi hn
  have hp0 : 0 < p := by rw [← hp]; positivity
  have hq := Nat.div_mul_le_self n d
  have hq2 : n < (n / d + 1) * d := by
    have := Nat.div_add_mod n d
    have := Nat.mod_lt n hd
    rw [Nat.add_mul, Nat.mul_comm (n / d) d]
    omega
  apply Nat.div_eq_of_lt_le
  · calc n / d * p ≤ n / d * (e * d) := Nat.mul_le_mul_left _ hlo
      _ = (n / d * d) * e := by ring
      _ ≤ n * e := Nat.mul_le_mul_right _ hq
  · have key : d * (n * e) < d * ((n / d + 1) * p) := by
      calc d * (n * e) = n * (e * d) := by ring
        _ ≤ n * (p + d - 1) := Nat.mul_le_mul_left _ hhi
        _ < (n + 1) * p := by
          rcases Nat.eq_zero_or_pos n with h0 | h0
          · subst h0; simpa using hp0
          · have e1 : p + d - 1 = p + (d - 1) := by omega
            rw [e1, Nat.mul_add, Nat.add_mul, Nat.one_mul]
            have : n * (d - 1) < n * d := Nat.mul_lt_mul_of_pos_left (by omega) h0
            omega
        _ ≤ ((n / d + 1) * d) * p := Nat.mul_le_mul_right _ hq2
        _ = d * ((n / d + 1) * p) := by ring
    exact Nat.lt_of_mul_lt_mul_left key

/-- The group index of every thread of execution group `group` is `group` when the launch fits
the precision of the encoding. -/
theorem fast_div_group (shift block_size group : Nat) (hb : 1 ≤ block_size)
    (hfit : (group + 1) * block_size * block_size ≤ 2 ^ shift) (l : Nat) (hl : l < block_size) :
    fast_div shift (group * block_size + l) (encode_divisor shift block_size) = group := by
  rw [fast_div_exact shift block_size (group * block_size + l) hb]
  · rw [Nat.mul_comm group block_size, Nat.mul_add_div (by omega), Nat.div_eq_of_lt hl]
    rfl
  · calc (group * block_size + l) * block_size
        ≤ ((group + 1) * block_size) * block_size := by
          apply Nat.mul_le_mul_right
          rw [Nat.add_mul, Nat.one_mul]
          omega
      _ ≤ 2 ^ shift := hfit

/-! ## Dispatch -/

theorem layernorm_vec_impl_not_no_kernel {T : Type} [Field T] (N shift : Nat) (rsqrt : T → T)
    (arg1 : argument T) (nelements relements : Nat) (d : device_state T) :
    (layernorm_vec_impl N shift rsqrt arg1 nelements relements d).1
      ≠ Except.error "No kernel for layernorm" := by
  unfold layernorm_vec_impl
  by_cases h : relements / N ≤ compute_block_size (relements / N) 256
  · simp [h]
  · simp only [h, if_false, ne_eq, Except.error.injEq]
    decide

theorem layernorm_impl_not_no_kernel {T : Type} [Field T] (shift : Nat) (rsqrt : T → T)
    (arg1 : argument T) (nelements relements : Nat) (d : device_state T) :
    (layernorm_impl shift rsqrt arg1 nelements relements d).1
      ≠ Except.error "No kernel for layernorm" := by
  unfold layernorm_impl
  by_cases h : relements ≤ compute_block_size relements 256
  · simp [h]
  · simp only [h, if_false, ne_eq, Except.error.injEq]
    decide

/-- C1: the entry point `layernorm` raises "No kernel for layernorm" if and only if the
reduction dimension (the last length of the shape of `arg1`) is not divisible by 4 and is at
least 256; and when it raises, the device is as before the call: no launch was enqueued on the
stream and the result buffer is untouched. -/
theorem layernorm_raises_iff {T : Type} [Field T] (shift : Nat) (rsqrt : T → T)
    (result_shape : shape) (arg1 : argument T) (d : device_state T) :
    ((layernorm shift rsqrt result_shape arg1 d).map Prod.fst
        = some (Except.error "No kernel for layernorm")
      ↔ (arg1.get_shape.lens.getLastD 0 % 4 ≠ 0 ∧ 256 ≤ arg1.get_shape.lens.getLastD 0))
    ∧ ((layernorm shift rsqrt result_shape arg1 d).map Prod.fst
        = some (Except.error "No kernel for layernorm")
      → (layernorm shift rsqrt result_shape arg1 d).map Prod.snd = some d) := by
  unfold layernorm
  by_cases h0 : arg1.get_shape.lens.getLastD 0 = 0
  · simp only [h0, if_true, Option.map_none']
    constructor
    · constructor
      · intro c
        exact absurd c (by simp)
      · intro c
        exact absurd rfl c.1
    · intro c
      exact absurd c (by simp)
  · by_cases h4 : arg1.get_shape.lens.getLastD 0 % 4 = 0
    · simp only [h0, h4, if_true, if_false, Option.map_some', Option.some.injEq]
      constructor
      · constructor
        · intro c
          exact absurd c (layernorm_vec_impl_not_no_kernel 4 shift rsqrt arg1 _ _ d)
        · intro c
          exact absurd rfl c.1
      · intro c
        exact absurd c (layernorm_vec_impl_not_no_kernel 4 shift rsqrt arg1 _ _ d)
    · by_cases h256 : arg1.get_shape.lens.getLastD 0 < 256
      · simp only [h0, h4, h256, if_true, if_false, Option.map_some', Option.some.injEq]
        constructor
        · constructor
          · intro c
            exact absurd c (layernorm_impl_not_no_kernel shift rsqrt arg1 _ _ d)
          · intro c
            omega
        · intro c
          exact absurd c (layernorm_impl_not_no_kernel shift rsqrt arg1 _ _ d)
      · simp only [h0, h4, h256, if_false, Option.map_some']
        constructor
        · constructor
          · intro _
            exact ⟨h4, by omega⟩
          · intro _
            trivial
        · intro _
          trivial

/-- C3 (the failing input): a reduction dimension of 1028 is divisible by 4, so the entry point
does not raise "No kernel for layernorm" and calls `layernorm_vec_impl<4>`; there
`relements_v = 257`, the block size is capped at 256, and the assertion
`relements_v <= block_size` fails. -/
theorem layernorm_1028_assertion_fails {T : Type} [Field T] (shift : Nat) (rsqrt : T → T)
    (n : Nat) (data : Nat → T) (d : device_state T) :
    layernorm shift rsqrt { lens := [n, 1028] }
        { get_shape := { lens := [n, 1028] }, data := data } d
      = some (Except.error "Assertion relements_v <= block_size failed", d)
    ∧ 1028 % 4 = 0 ∧ 1028 / 4 = 257 ∧ compute_block_size (1028 / 4) 256 = 256
    ∧ ¬ (1028 / 4 ≤ compute_block_size (1028 / 4) 256) := by
  have hb : compute_block_size 257 256 = 256 := by decide
  refine ⟨?_, by decide, by decide, hb, by rw [hb]; decide⟩
  unfold layernorm layernorm_vec_impl
  simp [hb]

/-- C4 (as stated, refuted): for the reduction dimension `R = 0`, which is divisible by 4, the
entry point selects no instantiation: the quotient `elements() / relements` that precedes the
dispatch is a division by zero. -/
theorem layernorm_zero_dimension_undefined :
    (0 : Nat) % 4 = 0
    ∧ layernorm 42 (fun t : ℚ => t) { lens := [3, 0] }
        { get_shape := { lens := [3, 0] }, data := fun _ => 0 }
        { stream := [], result := fun _ => 0 } = none
    ∧ (layernorm 42 (fun t : ℚ => t) { lens := [3, 0] }
        { get_shape := { lens := [3, 0] }, data := fun _ => 0 }
        { stream := [], result := fun _ => 0 }).isSome = false :=
  ⟨rfl, rfl, rfl⟩

/-- C4 (amended): for every reduction dimension `R > 0`, when `R` is divisible by 4 the entry
point is the 4-wide launcher `layernorm_vec_impl<4>` on `R` (whatever the size of `R`), whose
kernel handles `R / 4` packed elements per group; otherwise, when `R < 256`, it is the scalar
launcher `layernorm_impl` on `R`, whose kernel handles `R` elements per group. -/
theorem layernorm_dispatch {T : Type} [Field T] (shift : Nat) (rsqrt : T → T)
    (result_shape : shape) (arg1 : argument T) (d : device_state T) :
    (0 < arg1.get_shape.lens.getLastD 0 → arg1.get_shape.lens.getLastD 0 % 4 = 0 →
      layernorm shift rsqrt result_shape arg1 d
        = some (layernorm_vec_impl 4 shift rsqrt arg1
            (result_shape.elements / arg1.get_shape.lens.getLastD 0)
            (arg1.get_shape.lens.getLastD 0) d))
    ∧ (arg1.get_shape.lens.getLastD 0 % 4 ≠ 0 → arg1.get_shape.lens.getLastD 0 < 256 →
      layernorm shift rsqrt result_shape arg1 d
        = some (layernorm_impl shift rsqrt arg1
            (result_shape.elements / arg1.get_shape.lens.getLastD 0)
            (arg1.get_shape.lens.getLastD 0) d))
    ∧ arg1.get_shape.lens.getLastD 0 / (vec_type T 4).vector_size
        = arg1.get_shape.lens.getLastD 0 / 4
    ∧ arg1.get_shape.lens.getLastD 0 / (scalar_type T).vector_size
        = arg1.get_shape.lens.getLastD 0 := by
  refine ⟨?_, ?_, rfl, ?_⟩
  · intro h0 h4
    have hne : ¬ arg1.get_shape.lens.getLastD 0 = 0 := by omega
    unfold layernorm
    simp only [hne, h4, if_true, if_false]
  · intro h4 h256
    have hne : ¬ arg1.get_shape.lens.getLastD 0 = 0 := by
      intro c
      rw [c] at h4
      exact h4 rfl
    unfold layernorm
    simp only [hne, h4, h256, if_true, if_false]
  · simp [scalar_type]

/-- A use of C4 on a row of four elements: `4 % 4 = 0`, so the 4-wide launcher runs although
`4 < 256`; and on a row of 250 elements the scalar launcher runs. -/
theorem layernorm_dispatch_witness :
    layernorm 42 (fun t : ℚ => t) { lens := [1, 4] }
        { get_shape := { lens := [1, 4] }, data := fun _ => 0 } { stream := [], result := fun _ => 0 }
      = some (layernorm_vec_impl 4 42 (fun t : ℚ => t)
          { get_shape := { lens := [1, 4] }, data := fun _ => 0 } 1 4
          { stream := [], result := fun _ => 0 })
    ∧ layernorm 42 (fun t : ℚ => t) { lens := [1, 250] }
        { get_shape := { lens := [1, 250] }, data := fun _ => 0 }
        { stream := [], result := fun _ => 0 }
      = some (layernorm_impl 42 (fun t : ℚ => t)
          { get_shape := { lens := [1, 250] }, data := fun _ => 0 } 1 250
          { stream := [], result := fun _ => 0 }) :=
  ⟨(layernorm_dispatch 42 (fun t : ℚ => t) { lens := [1, 4] }
      { get_shape := { lens := [1, 4] }, data := fun _ => 0 }
      { stream := [], result := fun _ => 0 }).1 (by decide) (by decide),
   (layernorm_dispatch 42 (fun t : ℚ => t) { lens := [1, 250] }
      { get_shape := { lens := [1, 250] }, data := fun _ => 0 }
      { stream := [], result := fun _ => 0 }).2.1 (by decide) (by decide)⟩

/-- The result buffer after one execution group of either instantiation has run: the positions
of the row hold the normalised row, every other position is unchanged. -/
theorem run_group_apply {T : Type} [Field T] (k : instantiation) (shift : Nat) (rsqrt : T → T)
    (block_size block_size_div relements : Nat) (input : Nat → T) (group : Nat)
    (output : Nat → T) (hserves : k.serves relements block_size)
    (hdiv : ∀ l, l < block_size →
      fast_div shift (group * block_size + l) block_size_div = group) (a : Nat) :
    k.run_group shift rsqrt block_size block_size_div relements input group output a
      = if group * relements ≤ a ∧ a < group * relements + relements
        then normalized rsqrt relements (fun j => input (group * relements + j))
          (a - group * relements)
        else output a := by
  cases k with
  | scalar =>
    exact layernorm_impl_group_apply shift rsqrt block_size block_size_div relements input group
      output hdiv hserves a
  | vec4 =>
    exact layernorm_vec_impl_group_apply 4 shift rsqrt block_size block_size_div relements input
      group output hdiv (by norm_num) hserves.1 hserves.2 a

theorem run_group_row {T : Type} [Field T] (k : instantiation) (shift : Nat) (rsqrt : T → T)
    (block_size block_size_div relements : Nat) (input : Nat → T) (group : Nat)
    (output : Nat → T) (hserves : k.serves relements block_size)
    (hdiv : ∀ l, l < block_size →
      fast_div shift (group * block_size + l) block_size_div = group)
    (j : Nat) (hj : j < relements) :
    k.run_group shift rsqrt block_size block_size_div relements input group output
        (group * relements + j)
      = normalized rsqrt relements (fun i => input (group * relements + i)) j := by
  rw [run_group_apply k shift rsqrt block_size block_size_div relements input group output
    hserves hdiv]
  have h : group * relements ≤ group * relements + j
      ∧ group * relements + j < group * relements + relements := by omega
  rw [if_pos h, Nat.add_sub_cancel_left]

theorem sum_centered {T : Type} [LinearOrderedField T] (R : Nat) (x : Nat → T) :
    ∑ j ∈ Finset.range R, (x j - row_mean R x) = 0 := by
  rcases Nat.eq_zero_or_pos R with h0 | h0
  · subst h0
    simp
  · have hR : (R : T) ≠ 0 := Nat.cast_ne_zero.mpr (by omega)
    rw [Finset.sum_sub_distrib, Finset.sum_const, Finset.card_range, nsmul_eq_mul]
    unfold row_mean
    field_simp

theorem row_mean_const {T : Type} [LinearOrderedField T] (R : Nat) (x : Nat → T) (c : T)
    (hR : 0 < R) (hx : ∀ i, i < R → x i = c) : row_mean R x = c := by
  have hR0 : (R : T) ≠ 0 := Nat.cast_ne_zero.mpr (by omega)
  unfold row_mean
  rw [Finset.sum_congr rfl (fun i hi => hx i (Finset.mem_range.mp hi)), Finset.sum_const,
    Finset.card_range, nsmul_eq_mul]
  field_simp

theorem row_variance_nonneg {T : Type} [LinearOrderedField T] (R : Nat) (x : Nat → T) :
    0 ≤ row_variance R x := by
  unfold row_variance
  apply div_nonneg
  · exact Finset.sum_nonneg (fun i _ => mul_self_nonneg _)
  · exact Nat.cast_nonneg R

theorem epsilon_pos {T : Type} [LinearOrderedField T] : (0 : T) < epsilon := by
  unfold epsilon
  positivity

/-- C2: for a row served by either instantiation (scalar with `R ≤` group size, 4-wide with
`R % 4 = 0` and `R / 4 ≤` group size) whose threads compute the group index exactly, the value
the execution group writes at position `j < R` of the row is
`(x_j - mu) * rsqrt(s + 1e-12)` with `mu = (sum of x_i) / R` and
`s = (sum of (x_i - mu)^2) / R`: both sums are divided by the element count `R`. -/
theorem layernorm_writes_normalized {T : Type} [Field T] (k : instantiation) (shift : Nat)
    (rsqrt : T → T) (block_size block_size_div relements : Nat) (input : Nat → T) (group : Nat)
    (output : Nat → T) (hserves : k.serves relements block_size)
    (hdiv : ∀ l, l < block_size →
      fast_div shift (group * block_size + l) block_size_div = group)
    (j : Nat) (hj : j < relements) :
    k.run_group shift rsqrt block_size block_size_div relements input group output
        (group * relements + j)
      = (input (group * relements + j)
          - (∑ i ∈ Finset.range relements, input (group * relements + i)) / (relements : T))
        * rsqrt ((∑ i ∈ Finset.range relements,
            (input (group * relements + i)
              - (∑ i ∈ Finset.range relements, input (group * relements + i)) / (relements : T))
            * (input (group * relements + i)
              - (∑ i ∈ Finset.range relements, input (group * relements + i)) / (relements : T)))
            / (relements : T) + 1 / 1000000000000) := by
  rw [run_group_row k shift rsqrt block_size block_size_div relements input group output
    hserves hdiv j hj]
  rfl

/-- A use of C2 on the 4-wide instantiation: the second row of the buffer `0, 1, 2, ...` with
`R = 4` is `4, 5, 6, 7`, with mean `11/2` and mean squared deviation `5/4`; position 2 of the
row receives `(6 - 11/2) * rsqrt(5/4 + 1e-12)` (here with the identity in the place of
`rsqrt`). -/
theorem layernorm_writes_normalized_witness :
    (instantiation.vec4.serves 4 1
      ∧ (∀ l, l < 1 → fast_div 42 (1 * 1 + l) (encode_divisor 42 1) = 1) ∧ 2 < 4)
    ∧ instantiation.vec4.run_group 42 (fun t : ℚ => t) 1 (encode_divisor 42 1) 4
        (fun a => (a : ℚ)) 1 (fun _ => 0) (1 * 4 + 2)
      = (6 - 11 / 2) * (5 / 4 + 1 / 1000000000000) :=
  ⟨⟨by decide, by decide, by decide⟩,
    (layernorm_writes_normalized instantiation.vec4 42 (fun t : ℚ => t) 1 (encode_divisor 42 1) 4
      (fun a => (a : ℚ)) 1 (fun _ => 0) (by decide) (by decide) 2 (by decide)).trans
      (by norm_num [Finset.sum_range_succ])⟩

/-- C5: constant row.  When all `R` elements of a row served by either instantiation equal `c`,
every element the execution group writes for the row is `0`. -/
theorem layernorm_constant_row {T : Type} [LinearOrderedField T] (k : instantiation)
    (shift : Nat) (rsqrt : T → T) (block_size block_size_div relements : Nat) (input : Nat → T)
    (group : Nat) (output : Nat → T) (c : T) (hserves : k.serves relements block_size)
    (hdiv : ∀ l, l < block_size →
      fast_div shift (group * block_size + l) block_size_div = group)
    (hconst : ∀ i, i < relements → input (group * relements + i) = c)
    (j : Nat) (hj : j < relements) :
    k.run_group shift rsqrt block_size block_size_div relements input group output
        (group * relements + j) = 0 := by
  rw [run_group_row k shift rsqrt block_size block_size_div relements input group output
    hserves hdiv j hj]
  unfold normalized
  rw [row_mean_const relements (fun i => input (group * relements + i)) c (by omega) hconst]
  simp only [hconst j hj, sub_self, zero_mul]

/-- A use of C5: the row `7, 7, 7` on the scalar instantiation with a group of 4 threads. -/
theorem layernorm_constant_row_witness :
    (instantiation.scalar.serves 3 4
      ∧ (∀ l, l < 4 → fast_div 42 (2 * 4 + l) (encode_divisor 42 4) = 2)
      ∧ (∀ i, i < 3 → (fun _ : Nat => (7 : ℚ)) (2 * 3 + i) = 7) ∧ 1 < 3)
    ∧ instantiation.scalar.run_group 42 (fun t : ℚ => t) 4 (encode_divisor 42 4) 3
        (fun _ => (7 : ℚ)) 2 (fun _ => 1) (2 * 3 + 1) = 0 :=
  ⟨⟨by decide, by decide, fun _ _ => rfl, by decide⟩,
    layernorm_constant_row instantiation.scalar 42 (fun t : ℚ => t) 4 (encode_divisor 42 4) 3
      (fun _ => (7 : ℚ)) 2 (fun _ => 1) 7 (by decide) (by decide) (fun _ _ => rfl) 1
      (by decide)⟩

/-- C6: for a row served by either instantiation, the `R` values the execution group writes for
the row sum to exactly zero, so their mean is zero. -/
theorem layernorm_output_sum_zero {T : Type} [LinearOrderedField T] (k : instantiation)
    (shift : Nat) (rsqrt : T → T) (block_size block_size_div relements : Nat) (input : Nat → T)
    (group : Nat) (output : Nat → T) (hserves : k.serves relements block_size)
    (hdiv : ∀ l, l < block_size →
      fast_div shift (group * block_size + l) block_size_div = group) :
    ∑ j ∈ Finset.range relements,
        k.run_group shift rsqrt block_size block_size_div relements input group output
          (group * relements + j) = 0
    ∧ (∑ j ∈ Finset.range relements,
        k.run_group shift rsqrt block_size block_size_div relements input group output
          (group * relements + j)) / (relements : T) = 0 := by
  have h : ∑ j ∈ Finset.range relements,
      k.run_group shift rsqrt block_size block_size_div relements input group output
        (group * relements + j) = 0 := by
    rw [Finset.sum_congr rfl (fun j hj => run_group_row k shift rsqrt block_size block_size_div
      relements input group output hserves hdiv j (Finset.mem_range.mp hj))]
    unfold normalized
    rw [← Finset.sum_mul, sum_centered, zero_mul]
  exact ⟨h, by rw [h, zero_div]⟩

/-- A use of C6: the row `4, 5, 6, 7` on the 4-wide instantiation. -/
theorem layernorm_output_sum_zero_witness :
    (instantiation.vec4.serves 4 1
      ∧ (∀ l, l < 1 → fast_div 42 (1 * 1 + l) (encode_divisor 42 1) = 1))
    ∧ ∑ j ∈ Finset.range 4,
        instantiation.vec4.run_group 42 (fun t : ℚ => t) 1 (encode_divisor 42 1) 4
          (fun a => (a : ℚ)) 1 (fun _ => 0) (1 * 4 + j) = 0 :=
  ⟨⟨by decide, by decide⟩,
    (layernorm_output_sum_zero instantiation.vec4 42 (fun t : ℚ => t) 1 (encode_divisor 42 1) 4
      (fun a => (a : ℚ)) 1 (fun _ => 0) (by decide) (by decide)).1⟩

/-- C7: for a row of `R` elements served by either instantiation, with variance
`v = mean((x - mean(x))^2)` and a reciprocal square root with `rsqrt(t)^2 = 1 / t` for `t > 0`,
the mean of the squares of the written values is `v / (v + 1e-12)`; it lies in `[0, 1)` and
differs from `1` by exactly `1e-12 / (v + 1e-12)`. -/
theorem layernorm_output_mean_square {T : Type} [LinearOrderedField T] (k : instantiation)
    (shift : Nat) (rsqrt : T → T) (block_size block_size_div relements : Nat) (input : Nat → T)
    (group : Nat) (output : Nat → T) (hserves : k.serves relements block_size)
    (hdiv : ∀ l, l < block_size →
      fast_div shift (group * block_size + l) block_size_div = group)
    (hrsqrt : ∀ t, 0 < t → rsqrt t * rsqrt t = 1 / t) :
    row_mean relements (fun j =>
        k.run_group shift rsqrt block_size block_size_div relements input group output
          (group * relements + j)
        * k.run_group shift rsqrt block_size block_size_div relements input group output
          (group * relements + j))
      = row_variance relements (fun i => input (group * relements + i))
        / (row_variance relements (fun i => input (group * relements + i)) + 1 / 1000000000000)
    ∧ 0 ≤ row_mean relements (fun j =>
        k.run_group shift rsqrt block_size block_size_div relements input group output
          (group * relements + j)
        * k.run_group shift rsqrt block_size block_size_div relements input group output
          (group * relements + j))
    ∧ row_mean relements (fun j =>
        k.run_group shift rsqrt block_size block_size_div relements input group output
          (group * relements + j)
        * k.run_group shift rsqrt block_size block_size_div relements input group output
          (group * relements + j)) < 1
    ∧ 1 - row_mean relements (fun j =>
        k.run_group shift rsqrt block_size block_size_div relements input group output
          (group * relements + j)
        * k.run_group shift rsqrt block_size block_size_div relements input group output
          (group * relements + j))
      = 1 / 1000000000000
        / (row_variance relements (fun i => input (group * relements + i))
          + 1 / 1000000000000) := by
  have hv := row_variance_nonneg relements (fun i => input (group * relements + i))
  have he : (0 : T) < 1 / 1000000000000 := epsilon_pos
  generalize hvd : row_variance relements (fun i => input (group * relements + i)) = v at hv
  have hpos : 0 < v + 1 / 1000000000000 := by linarith
  have key : row_mean relements (fun j =>
      k.run_group shift rsqrt block_size block_size_div relements input group output
        (group * relements + j)
      * k.run_group shift rsqrt block_size block_size_div relements input group output
        (group * relements + j)) = v / (v + 1 / 1000000000000) := by
    unfold row_mean
    have hs : epsilon = (1 / 1000000000000 : T) := rfl
    have hsum : ∑ j ∈ Finset.range relements,
        k.run_group shift rsqrt block_size block_size_div relements input group output
          (group * relements + j)
        * k.run_group shift rsqrt block_size block_size_div relements input group output
          (group * relements + j)
        = ∑ j ∈ Finset.range relements,
          (input (group * relements + j)
            - row_mean relements (fun i => input (group * relements + i)))
          * (input (group * relements + j)
            - row_mean relements (fun i => input (group * relements + i)))
          * (1 / (v + 1 / 1000000000000)) := by
      apply Finset.sum_congr rfl
      intro j hj
      rw [run_group_row k shift rsqrt block_size block_size_div relements input group output
        hserves hdiv j (Finset.mem_range.mp hj)]
      unfold normalized
      rw [hvd, hs, ← hrsqrt _ hpos]
      ring
    rw [hsum, ← Finset.sum_mul, mul_div_right_comm]
    have hvar : (∑ i ∈ Finset.range relements,
        (input (group * relements + i)
          - row_mean relements (fun i => input (group * relements + i)))
        * (input (group * relements + i)
          - row_mean relements (fun i => input (group * relements + i)))) / (relements : T)
        = v := hvd
    rw [hvar]
    field_simp
  rw [key]
  refine ⟨rfl, div_nonneg hv (le_of_lt hpos), ?_, ?_⟩
  · rw [div_lt_one hpos]
    linarith
  · field_simp

/-- A use of C7 over the reals, with `rsqrt t = 1 / sqrt t`: the row `4, 5, 6, 7` on the scalar
instantiation has variance `5/4`, and the mean of the squares of the written values is
`(5/4) / (5/4 + 1e-12)`. -/
theorem layernorm_output_mean_square_witness :
    (instantiation.scalar.serves 4 4
      ∧ (∀ l, l < 4 → fast_div 42 (1 * 4 + l) (encode_divisor 42 4) = 1)
      ∧ (∀ t : ℝ, 0 < t → (Real.sqrt t)⁻¹ * (Real.sqrt t)⁻¹ = 1 / t))
    ∧ row_mean 4 (fun j =>
        instantiation.scalar.run_group 42 (fun t : ℝ => (Real.sqrt t)⁻¹) 4 (encode_divisor 42 4)
          4 (fun a => (a : ℝ)) 1 (fun _ => 0) (1 * 4 + j)
        * instantiation.scalar.run_group 42 (fun t : ℝ => (Real.sqrt t)⁻¹) 4
          (encode_divisor 42 4) 4 (fun a => (a : ℝ)) 1 (fun _ => 0) (1 * 4 + j))
      = (5 / 4) / (5 / 4 + 1 / 1000000000000) :=
  have hsq : ∀ t : ℝ, 0 < t → (Real.sqrt t)⁻¹ * (Real.sqrt t)⁻¹ = 1 / t := fun t ht => by
    rw [← mul_inv, Real.mul_self_sqrt (le_of_lt ht), one_div]
  ⟨⟨by decide, by decide, hsq⟩,
    (layernorm_output_mean_square instantiation.scalar 42 (fun t : ℝ => (Real.sqrt t)⁻¹) 4
      (encode_divisor 42 4) 4 (fun a => (a : ℝ)) 1 (fun _ => 0) (by decide) (by decide)
      hsq).1.trans (by norm_num [row_variance, row_mean, Finset.sum_range_succ])⟩

/-- C9: for a row served by either instantiation whose mean is `0` and whose mean of squares is
`1`, every written value is the input scaled by the one constant `rsqrt(1 + 1e-12)`. -/
theorem layernorm_unit_row {T : Type} [LinearOrderedField T] (k : instantiation)
    (shift : Nat) (rsqrt : T → T) (block_size block_size_div relements : Nat) (input : Nat → T)
    (group : Nat) (output : Nat → T) (hserves : k.serves relements block_size)
    (hdiv : ∀ l, l < block_size →
      fast_div shift (group * block_size + l) block_size_div = group)
    (hmean : (∑ i ∈ Finset.range relements, input (group * relements + i)) / (relements : T) = 0)
    (hsquare : (∑ i ∈ Finset.range relements,
      input (group * relements + i) * input (group * relements + i)) / (relements : T) = 1)
    (j : Nat) (hj : j < relements) :
    k.run_group shift rsqrt block_size block_size_div relements input group output
        (group * relements + j)
      = input (group * relements + j) * rsqrt (1 + 1 / 1000000000000) := by
  rw [run_group_row k shift rsqrt block_size block_size_div relements input group output
    hserves hdiv j hj]
  have hm : row_mean relements (fun i => input (group * relements + i)) = 0 := hmean
  have hv : row_variance relements (fun i => input (group * relements + i)) = 1 := by
    unfold row_variance
    rw [hm]
    simpa only [sub_zero] using hsquare
  unfold normalized
  rw [hv, hm, sub_zero]
  rfl

/-- A use of C9: the row `1, -1` has mean `0` and mean of squares `1`. -/
theorem layernorm_unit_row_witness :
    (instantiation.scalar.serves 2 2
      ∧ (∀ l, l < 2 → fast_div 42 (0 * 2 + l) (encode_divisor 42 2) = 0)
      ∧ (∑ i ∈ Finset.range 2, (fun a : Nat => if a % 2 = 0 then (1 : ℚ) else -1) (0 * 2 + i))
          / ((2 : Nat) : ℚ) = 0
      ∧ (∑ i ∈ Finset.range 2, (fun a : Nat => if a % 2 = 0 then (1 : ℚ) else -1) (0 * 2 + i)
          * (fun a : Nat => if a % 2 = 0 then (1 : ℚ) else -1) (0 * 2 + i))
          / ((2 : Nat) : ℚ) = 1
      ∧ 1 < 2)
    ∧ instantiation.scalar.run_group 42 (fun t : ℚ => t) 2 (encode_divisor 42 2) 2
        (fun a : Nat => if a % 2 = 0 then (1 : ℚ) else -1) 0 (fun _ => 0) (0 * 2 + 1)
      = (-1) * (1 + 1 / 1000000000000) :=
  have h1 : (∑ i ∈ Finset.range 2, (fun a : Nat => if a % 2 = 0 then (1 : ℚ) else -1) (0 * 2 + i))
      / ((2 : Nat) : ℚ) = 0 := by
    norm_num [Finset.sum_range_succ]
  have h2 : (∑ i ∈ Finset.range 2, (fun a : Nat => if a % 2 = 0 then (1 : ℚ) else -1) (0 * 2 + i)
      * (fun a : Nat => if a % 2 = 0 then (1 : ℚ) else -1) (0 * 2 + i))
      / ((2 : Nat) : ℚ) = 1 := by
    norm_num [Finset.sum_range_succ]
  ⟨⟨by decide, by decide, h1, h2, by decide⟩,
    (layernorm_unit_row instantiation.scalar 42 (fun t : ℚ => t) 2 (encode_divisor 42 2) 2
      (fun a : Nat => if a % 2 = 0 then (1 : ℚ) else -1) 0 (fun _ => 0) (by decide) (by decide)
      h1 h2 1 (by decide)).trans (by norm_num)⟩

/-! ## Whole launches -/

theorem foldl_groups_apply {T : Type} (R : Nat) (val : Nat → Nat → T)
    (f : Nat → (Nat → T) → Nat → T) (G : Nat)
    (hf : ∀ g, g < G → ∀ out a, f g out a
      = if g * R ≤ a ∧ a < g * R + R then val g (a - g * R) else out a)
    (out0 : Nat → T) (a : Nat) :
    (List.range G).foldl (fun out g => f g out) out0 a
      = if a < G * R then val (a / R) (a % R) else out0 a := by
  induction G with
  | zero => simp
  | succ m ih =>
    rw [List.range_succ, List.foldl_append]
    simp only [List.foldl_cons, List.foldl_nil]
    rw [hf m (Nat.lt_succ_self m), ih (fun g hg => hf g (Nat.lt_succ_of_lt hg))]
    have hsucc : (m + 1) * R = m * R + R := by ring
    by_cases h : m * R ≤ a ∧ a < m * R + R
    · have hR : 0 < R := by omega
      have hdivm : a / R = m := by
        apply Nat.div_eq_of_lt_le h.1
        rw [hsucc]
        exact h.2
      have hmod : a % R = a - m * R := by
        have := Nat.div_add_mod a R
        rw [hdivm, Nat.mul_comm] at this
        omega
      rw [if_pos h, if_pos (by rw [hsucc]; exact h.2), hdivm, hmod]
    · rw [if_neg h]
      by_cases h2 : a < m * R
      · rw [if_pos h2, if_pos (by rw [hsucc]; omega)]
      · rw [if_neg h2, if_neg (by rw [hsucc]; omega)]

/-- The result of the scalar launcher for `relements ≤ 256` and a launch within the precision of
the fast division: it succeeds, enqueues one launch of `nelements` groups, and the result buffer
holds the normalised rows. -/
theorem layernorm_impl_result {T : Type} [Field T] (shift : Nat) (rsqrt : T → T)
    (arg1 : argument T) (nelements relements : Nat) (d : device_state T)
    (hR : relements ≤ 256) (hfit : nelements * 256 * 256 ≤ 2 ^ shift) :
    (layernorm_impl shift rsqrt arg1 nelements relements d).1 = Except.ok ()
    ∧ (layernorm_impl shift rsqrt arg1 nelements relements d).2.stream
      = d.stream ++ [{ n := nelements * compute_block_size relements 256,
                       nlocal := compute_block_size relements 256 }]
    ∧ ∀ a, (layernorm_impl shift rsqrt arg1 nelements relements d).2.result a
      = if a < nelements * relements
        then normalized rsqrt relements (fun j => arg1.data (a / relements * relements + j))
          (a % relements)
        else d.result a := by
  have hcover := le_compute_block_size relements 256 hR
  have hpos := compute_block_size_pos relements 256
  have hcap := compute_block_size_le relements
  unfold layernorm_impl
  simp only [hcover, if_true]
  refine ⟨trivial, rfl, ?_⟩
  intro a
  unfold gs_launch
  simp only [Nat.mul_div_cancel _ hpos]
  apply foldl_groups_apply relements
    (fun g i => normalized rsqrt relements (fun j => arg1.data (g * relements + j)) i)
  intro g hg out b
  apply layernorm_impl_group_apply shift rsqrt _ _ relements arg1.data g out _ hcover
  intro l hl
  apply fast_div_group shift _ g hpos _ l hl
  calc (g + 1) * compute_block_size relements 256 * compute_block_size relements 256
      ≤ nelements * 256 * 256 :=
        Nat.mul_le_mul (Nat.mul_le_mul (by omega) hcap) hcap
    _ ≤ 2 ^ shift := hfit

/-- The result of the 4-wide launcher for `relements` a multiple of 4 up to 1024 and a launch
within the precision of the fast division. -/
theorem layernorm_vec_impl_result {T : Type} [Field T] (shift : Nat) (rsqrt : T → T)
    (arg1 : argument T) (nelements relements : Nat) (d : device_state T)
    (h4 : relements % 4 = 0) (hR : relements / 4 ≤ 256)
    (hfit : nelements * 256 * 256 ≤ 2 ^ shift) :
    (layernorm_vec_impl 4 shift rsqrt arg1 nelements relements d).1 = Except.ok ()
    ∧ (layernorm_vec_impl 4 shift rsqrt arg1 nelements relements d).2.stream
      = d.stream ++ [{ n := nelements * compute_block_size (relements / 4) 256,
                       nlocal := compute_block_size (relements / 4) 256 }]
    ∧ ∀ a, (layernorm_vec_impl 4 shift rsqrt arg1 nelements relements d).2.result a
      = if a < nelements * relements
        then normalized rsqrt relements (fun j => arg1.data (a / relements * relements + j))
          (a % relements)
        else d.result a := by
  have hcover := le_compute_block_size (relements / 4) 256 hR
  have hpos := compute_block_size_pos (relements / 4) 256
  have hcap := compute_block_size_le (relements / 4)
  unfold layernorm_vec_impl
  simp only [hcover, if_true]
  refine ⟨trivial, rfl, ?_⟩
  intro a
  unfold gs_launch
  simp only [Nat.mul_div_cancel _ hpos]
  apply foldl_groups_apply relements
    (fun g i => normalized rsqrt relements (fun j => arg1.data (g * relements + j)) i)
  intro g hg out b
  apply layernorm_vec_impl_group_apply 4 shift rsqrt _ _ relements arg1.data g out _
    (by norm_num) h4 hcover
  intro l hl
  apply fast_div_group shift _ g hpos _ l hl
  calc (g + 1) * compute_block_size (relements / 4) 256 * compute_block_size (relements / 4) 256
      ≤ nelements * 256 * 256 :=
        Nat.mul_le_mul (Nat.mul_le_mul (by omega) hcap) hcap
    _ ≤ 2 ^ shift := hfit

/-- C8: for a reduction dimension divisible by 4 that both launchers can serve
(`relements ≤ 256`, so that `relements` and `relements / 4` fit their group sizes), on the same
input and the same initial result buffer, `layernorm_vec_impl<4>` and `layernorm_impl` both
succeed and leave the same value at every position of the result buffer (for a launch within
the precision of the fast division). -/
theorem layernorm_vec_impl_eq_layernorm_impl {T : Type} [Field T] (shift : Nat)
    (rsqrt : T → T) (arg1 : argument T) (nelements relements : Nat) (d : device_state T)
    (h4 : relements % 4 = 0) (hR : relements ≤ 256)
    (hfit : nelements * 256 * 256 ≤ 2 ^ shift) :
    (layernorm_vec_impl 4 shift rsqrt arg1 nelements relements d).1 = Except.ok ()
    ∧ (layernorm_impl shift rsqrt arg1 nelements relements d).1 = Except.ok ()
    ∧ ∀ a, (layernorm_vec_impl 4 shift rsqrt arg1 nelements relements d).2.result a
      = (layernorm_impl shift rsqrt arg1 nelements relements d).2.result a := by
  have hv := layernorm_vec_impl_result shift rsqrt arg1 nelements relements d h4 (by omega) hfit
  have hs := layernorm_impl_result shift rsqrt arg1 nelements relements d hR hfit
  refine ⟨hv.1, hs.1, ?_⟩
  intro a
  rw [hv.2.2 a, hs.2.2 a]

/-- A use of C8: two rows of eight elements. -/
theorem layernorm_vec_impl_eq_layernorm_impl_witness :
    (8 % 4 = 0 ∧ 8 ≤ 256 ∧ 2 * 256 * 256 ≤ 2 ^ 42)
    ∧ ∀ a, (layernorm_vec_impl 4 42 (fun t : ℚ => t)
          { get_shape := { lens := [2, 8] }, data := fun i => (i : ℚ) * (i : ℚ) } 2 8
          { stream := [], result := fun _ => 0 }).2.result a
      = (layernorm_impl 42 (fun t : ℚ => t)
          { get_shape := { lens := [2, 8] }, data := fun i => (i : ℚ) * (i : ℚ) } 2 8
          { stream := [], result := fun _ => 0 }).2.result a :=
  ⟨by decide,
    (layernorm_vec_impl_eq_layernorm_impl 42 (fun t : ℚ => t)
      { get_shape := { lens := [2, 8] }, data := fun i => (i : ℚ) * (i : ℚ) } 2 8
      { stream := [], result := fun _ => 0 } (by decide) (by decide) (by decide)).2.2⟩

/-! ## Masking and the indices written -/

theorem normalized_congr {T : Type} [Field T] (rsqrt : T → T) (R : Nat) (x y : Nat → T)
    (h : ∀ i, i < R → x i = y i) (j : Nat) (hj : j < R) :
    normalized rsqrt R x j = normalized rsqrt R y j := by
  have hm : row_mean R x = row_mean R y := by
    unfold row_mean
    rw [Finset.sum_congr rfl (fun i hi => h i (Finset.mem_range.mp hi))]
  have hv : row_variance R x = row_variance R y := by
    unfold row_variance
    rw [hm, Finset.sum_congr rfl (fun i hi => by rw [h i (Finset.mem_range.mp hi)])]
  unfold normalized
  rw [hm, hv, h j hj]

theorem map_fst_filterMap_ite {V : Type} (L : List Nat) (c : Nat → Bool) (a : Nat → Nat)
    (v : Nat → V) :
    (L.filterMap (fun l => if c l = true then some (a l, v l) else none)).map Prod.fst
      = L.filterMap (fun l => if c l = true then some (a l) else none) := by
  rw [List.map_filterMap]
  apply List.filterMap_congr
  intro l _
  by_cases h : c l = true
  · simp [h]
  · simp [h]

/-- The indices the threads of one execution group store to, for any value type: under an exact
group index and `relements / vector_size ≤ nlocal`, thread `l` stores if and only if
`l < relements / vector_size`, to `group * (relements / vector_size) + l`. -/
theorem layernorm_kernel_indices {T V : Type} [Field T] (vt : value_type T V) (shift : Nat)
    (rsqrt : T → T) (nlocal group block_size_div relements : Nat) (input : Nat → V)
    (hdiv : ∀ l, l < nlocal → fast_div shift (group * nlocal + l) block_size_div = group)
    (hR : relements / vt.vector_size ≤ nlocal) :
    (layernorm_kernel vt shift rsqrt nlocal group block_size_div relements input).map Prod.fst
      = (List.range (relements / vt.vector_size)).map
          (fun l => group * (relements / vt.vector_size) + l) := by
  unfold layernorm_kernel
  rw [map_fst_filterMap_ite]
  apply filterMap_range_ite nlocal (relements / vt.vector_size) _ _ hR
  intro l hl
  show fast_div shift (group * nlocal + l) block_size_div * (relements / vt.vector_size) + l
    = group * (relements / vt.vector_size) + l
  rw [hdiv l (lt_of_lt_of_le hl hR)]

/-- C11: on the scalar path with `relements` at most the group size (as 250 in a group of 256),
the threads with local id `≥ relements` are masked.  Only the threads below `relements` store,
thread `l` to position `l` of the row, and the value stored is
`(x_l - mu) * rsqrt(s + 1e-12)` where both sums, `mu = (sum of x_j) / relements` and
`s = (sum of (x_j - mu)^2) / relements`, run over the `relements` elements of the row only: the
masked threads add nothing to the first sum and nothing to the second, although their centred
value is `0 - mu`.  The reductions of the kernel ignore the masked threads whatever their
values.  So the stores of the group are the same for two inputs that agree on the row: nothing
outside the row is read. -/
theorem layernorm_kernel_masked {T : Type} [Field T] (shift : Nat) (rsqrt : T → T)
    (nlocal group block_size_div relements : Nat) (input other : Nat → T)
    (hdiv : ∀ l, l < nlocal → fast_div shift (group * nlocal + l) block_size_div = group)
    (hR : relements ≤ nlocal)
    (hrow : ∀ j, j < relements → input (group * relements + j) = other (group * relements + j)) :
    layernorm_kernel (scalar_type T) shift rsqrt nlocal group block_size_div relements input
      = (List.range relements).map (fun l => (group * relements + l,
          (input (group * relements + l)
            - (∑ j ∈ Finset.range relements, input (group * relements + j)) / (relements : T))
          * rsqrt ((∑ i ∈ Finset.range relements,
              (input (group * relements + i)
                - (∑ j ∈ Finset.range relements, input (group * relements + j))
                  / (relements : T))
              * (input (group * relements + i)
                - (∑ j ∈ Finset.range relements, input (group * relements + j))
                  / (relements : T)))
              / (relements : T) + 1 / 1000000000000)))
    ∧ (∀ z : Nat → T,
      auto_block_reduce (scalar_type T) nlocal (sum (scalar_type T)) ((scalar_type T).splat 0)
          relements (fun l _ => z l)
        = ∑ l ∈ Finset.range relements, z l)
    ∧ (∀ z w : Nat → T, (∀ l, l < relements → z l = w l) →
      auto_block_reduce (scalar_type T) nlocal (sum (scalar_type T)) ((scalar_type T).splat 0)
          relements (fun l _ => z l)
        = auto_block_reduce (scalar_type T) nlocal (sum (scalar_type T))
          ((scalar_type T).splat 0) relements (fun l _ => w l))
    ∧ (layernorm_kernel (scalar_type T) shift rsqrt nlocal group block_size_div relements
          input).map Prod.fst
        = (List.range relements).map (fun l => group * relements + l)
    ∧ layernorm_kernel (scalar_type T) shift rsqrt nlocal group block_size_div relements input
        = layernorm_kernel (scalar_type T) shift rsqrt nlocal group block_size_div relements other
    ∧ ∀ output, layernorm_impl_group shift rsqrt nlocal block_size_div relements input group output
        = layernorm_impl_group shift rsqrt nlocal block_size_div relements other group output := by
  have hlist : layernorm_kernel (scalar_type T) shift rsqrt nlocal group block_size_div relements
      input
      = layernorm_kernel (scalar_type T) shift rsqrt nlocal group block_size_div relements
        other := by
    rw [layernorm_kernel_scalar shift rsqrt nlocal group block_size_div relements input hdiv hR,
      layernorm_kernel_scalar shift rsqrt nlocal group block_size_div relements other hdiv hR]
    apply List.map_congr_left
    intro l hl
    rw [normalized_congr rsqrt relements (fun j => input (group * relements + j))
      (fun j => other (group * relements + j)) hrow l (List.mem_range.mp hl)]
  refine ⟨?_, ?_, ?_, ?_, hlist, ?_⟩
  · rw [layernorm_kernel_scalar shift rsqrt nlocal group block_size_div relements input hdiv hR]
    rfl
  · intro z
    exact auto_block_reduce_scalar nlocal relements _ hR
  · intro z w hzw
    rw [auto_block_reduce_scalar nlocal relements _ hR,
      auto_block_reduce_scalar nlocal relements _ hR]
    exact Finset.sum_congr rfl (fun l hl => hzw l (Finset.mem_range.mp hl))
  · have hv : relements / (scalar_type T).vector_size = relements := by
      simp [scalar_type]
    have h := layernorm_kernel_indices (scalar_type T) shift rsqrt nlocal group block_size_div
      relements input hdiv (by rw [hv]; exact hR)
    rw [hv] at h
    exact h
  · intro output
    unfold layernorm_impl_group
    rw [hlist]

/-- A use of C11: the row `1, 2, 6` in a group of four threads.  The mean is `3`, so the masked
thread 3 has the centred value `0 - 3`; the second sum is `4 + 1 + 9 = 14` over the three
elements of the row (with the masked thread it would be `23`), and thread 0 stores
`(1 - 3) * rsqrt(14/3 + 1e-12)` (here with the identity in the place of `rsqrt`); three
stores are made, none by thread 3. -/
theorem layernorm_kernel_masked_witness :
    ((∀ l, l < 4 → fast_div 42 (0 * 4 + l) (encode_divisor 42 4) = 0) ∧ 3 ≤ 4
      ∧ ∀ j, j < 3 → (fun a : Nat => ([1, 2, 6, 100, 200] : List ℚ).getD a 0) (0 * 3 + j)
          = (fun a : Nat => ([1, 2, 6] : List ℚ).getD a 0) (0 * 3 + j))
    ∧ layernorm_kernel (scalar_type ℚ) 42 (fun t => t) 4 0 (encode_divisor 42 4) 3
        (fun a : Nat => ([1, 2, 6, 100, 200] : List ℚ).getD a 0)
      = [(0, (1 - 3) * (14 / 3 + 1 / 1000000000000)),
         (1, (2 - 3) * (14 / 3 + 1 / 1000000000000)),
         (2, (6 - 3) * (14 / 3 + 1 / 1000000000000))] :=
  have hdiv : ∀ l, l < 4 → fast_div 42 (0 * 4 + l) (encode_divisor 42 4) = 0 := by decide
  have hrow : ∀ j, j < 3 → (fun a : Nat => ([1, 2, 6, 100, 200] : List ℚ).getD a 0) (0 * 3 + j)
      = (fun a : Nat => ([1, 2, 6] : List ℚ).getD a 0) (0 * 3 + j) := by
    intro j hj
    interval_cases j <;> rfl
  ⟨⟨hdiv, by decide, hrow⟩,
    (layernorm_kernel_masked 42 (fun t : ℚ => t) 4 0 (encode_divisor 42 4) 3
      (fun a : Nat => ([1, 2, 6, 100, 200] : List ℚ).getD a 0)
      (fun a : Nat => ([1, 2, 6] : List ℚ).getD a 0) hdiv (by decide) hrow).1.trans
      (by norm_num [Finset.sum_range_succ, List.range_succ])⟩

theorem flatMap_range_rows (G e : Nat) :
    (List.range G).flatMap (fun g => (List.range e).map (fun l => g * e + l))
      = List.range (G * e) := by
  induction G with
  | zero => simp
  | succ m ih =>
    rw [List.range_succ, List.flatMap_append, ih, List.flatMap_singleton, Nat.succ_mul,
      List.range_add]

/-- C12: a launch of `group_count` execution groups of `block_size` threads, whose threads get
their group index `i / block_size` from the fast division, with
`elements_per_group = relements / vector_size` at most `block_size`.  Thread `l` of group `g` is
the global thread `i = g * block_size + l`; it stores only if `l < elements_per_group`, to index
`(i / block_size) * elements_per_group + l`.  So group `g` stores exactly to the indices of
`[g * elements_per_group, (g + 1) * elements_per_group)`, and the stores of all groups in order
are to `0, 1, ..., group_count * elements_per_group - 1`: every index of the range once, none
outside.  For a reduction dimension `relements > 0` the entry point enqueues exactly such a
launch: `(elements / relements) * block_size` threads in groups of `block_size`, on the scalar
path and, when the assertion of the launcher holds, on the 4-wide path. -/
theorem layernorm_launch_indices {T V : Type} [Field T] (vt : value_type T V) (shift : Nat)
    (rsqrt : T → T) (group_count block_size relements : Nat) (input : Nat → V)
    (hB : 1 ≤ block_size) (hepg : relements / vt.vector_size ≤ block_size)
    (hdiv : ∀ i, i < group_count * block_size →
      fast_div shift i (encode_divisor shift block_size) = i / block_size) :
    (∀ g, g < group_count →
      (layernorm_kernel vt shift rsqrt block_size g (encode_divisor shift block_size) relements
          input).map Prod.fst
        = (List.range (relements / vt.vector_size)).map (fun l =>
            (g * block_size + l) / block_size * (relements / vt.vector_size)
              + (g * block_size + l) % block_size))
    ∧ (∀ g, g < group_count → ∀ a,
      a ∈ (layernorm_kernel vt shift rsqrt block_size g (encode_divisor shift block_size)
          relements input).map Prod.fst
        ↔ g * (relements / vt.vector_size) ≤ a ∧ a < (g + 1) * (relements / vt.vector_size))
    ∧ (List.range group_count).flatMap (fun g =>
        (layernorm_kernel vt shift rsqrt block_size g (encode_divisor shift block_size) relements
          input).map Prod.fst)
      = List.range (group_count * (relements / vt.vector_size))
    ∧ (∀ (result_shape : shape) (arg1 : argument T) (d : device_state T),
      (0 < arg1.get_shape.lens.getLastD 0 → arg1.get_shape.lens.getLastD 0 % 4 = 0 →
        arg1.get_shape.lens.getLastD 0 / 4
          ≤ compute_block_size (arg1.get_shape.lens.getLastD 0 / 4) 256 →
        (layernorm shift rsqrt result_shape arg1 d).map (fun r => r.2.stream)
          = some (d.stream ++ [{
              n := result_shape.elements / arg1.get_shape.lens.getLastD 0
                * compute_block_size (arg1.get_shape.lens.getLastD 0 / 4) 256,
              nlocal := compute_block_size (arg1.get_shape.lens.getLastD 0 / 4) 256 }]))
      ∧ (arg1.get_shape.lens.getLastD 0 % 4 ≠ 0 → arg1.get_shape.lens.getLastD 0 < 256 →
        (layernorm shift rsqrt result_shape arg1 d).map (fun r => r.2.stream)
          = some (d.stream ++ [{
              n := result_shape.elements / arg1.get_shape.lens.getLastD 0
                * compute_block_size (arg1.get_shape.lens.getLastD 0) 256,
              nlocal := compute_block_size (arg1.get_shape.lens.getLastD 0) 256 }]))) := by
  have hgl : ∀ g, g < group_count → ∀ l, l < block_size →
      (g * block_size + l) / block_size = g ∧ (g * block_size + l) % block_size = l := by
    intro g _ l hl
    constructor
    · rw [Nat.mul_comm g block_size, Nat.mul_add_div (by omega), Nat.div_eq_of_lt hl]
      rfl
    · rw [Nat.mul_comm g block_size, Nat.mul_add_mod, Nat.mod_eq_of_lt hl]
  have hker : ∀ g, g < group_count →
      (layernorm_kernel vt shift rsqrt block_size g (encode_divisor shift block_size) relements
          input).map Prod.fst
        = (List.range (relements / vt.vector_size)).map
          (fun l => g * (relements / vt.vector_size) + l) := by
    intro g hg
    apply layernorm_kernel_indices vt shift rsqrt block_size g _ relements input _ hepg
    intro l hl
    have hlt : g * block_size + l < group_count * block_size := by
      calc g * block_size + l < g * block_size + block_size := by omega
        _ = (g + 1) * block_size := by ring
        _ ≤ group_count * block_size := Nat.mul_le_mul_right _ hg
    rw [hdiv (g * block_size + l) hlt]
    exact (hgl g hg l hl).1
  refine ⟨?_, ?_, ?_, ?_⟩
  · intro g hg
    rw [hker g hg]
    apply List.map_congr_left
    intro l hl
    have hl2 : l < block_size := lt_of_lt_of_le (List.mem_range.mp hl) hepg
    rw [(hgl g hg l hl2).1, (hgl g hg l hl2).2]
  · intro g hg a
    rw [hker g hg, List.mem_map]
    have hs : (g + 1) * (relements / vt.vector_size)
        = g * (relements / vt.vector_size) + relements / vt.vector_size := by ring
    constructor
    · rintro ⟨l, hl, rfl⟩
      have := List.mem_range.mp hl
      omega
    · intro h
      exact ⟨a - g * (relements / vt.vector_size), List.mem_range.mpr (by omega), by omega⟩
  · rw [List.flatMap_congr (fun g hg => hker g (List.mem_range.mp hg))]
    exact flatMap_range_rows group_count (relements / vt.vector_size)
  · intro result_shape arg1 d
    constructor
    · intro h0 h4 hassert
      have hne : ¬ arg1.get_shape.lens.getLastD 0 = 0 := by omega
      unfold layernorm
      simp only [hne, h4, if_true, if_false, Option.map_some']
      unfold layernorm_vec_impl
      simp only [hassert, if_true]
      rfl
    · intro h4 h256
      have hne : ¬ arg1.get_shape.lens.getLastD 0 = 0 := by
        intro c
        rw [c] at h4
        exact h4 rfl
      have hassert := le_compute_block_size (arg1.get_shape.lens.getLastD 0) 256 (by omega)
      unfold layernorm
      simp only [hne, h4, h256, if_true, if_false, Option.map_some']
      unfold layernorm_impl
      simp only [hassert, if_true]
      rfl

/-- A use of C12: three groups of two threads on rows of eight elements in packed fours (two
packed elements per group) store to the indices `0, ..., 5`, each once. -/
theorem layernorm_launch_indices_witness :
    (1 ≤ 2 ∧ 8 / (vec_type ℚ 4).vector_size ≤ 2
      ∧ ∀ i, i < 3 * 2 → fast_div 42 i (encode_divisor 42 2) = i / 2)
    ∧ (List.range 3).flatMap (fun g =>
        (layernorm_kernel (vec_type ℚ 4) 42 (fun t => t) 2 g (encode_divisor 42 2) 8
          (fun _ _ => 0)).map Prod.fst)
      = [0, 1, 2, 3, 4, 5] :=
  ⟨⟨by decide, by decide, by decide⟩,
    (layernorm_launch_indices (vec_type ℚ 4) 42 (fun t => t) 3 2 8 (fun _ _ => 0) (by decide)
      (by decide) (by decide)).2.2.1.trans (by decide)⟩

/-! ## The vector abstraction and `auto_block_reduce` -/

/-- C14 (as stated, refuted): on the scalar `5` with initial value `0` and the operator `+`,
`vec_reduce` returns `5`, not the initial value `0`. -/
theorem vec_reduce_scalar_not_init :
    vec_reduce (5 : Nat) (0 : Nat) (fun a b : Nat => a + b) = 5
    ∧ ¬ (vec_reduce (5 : Nat) (0 : Nat) (fun a b : Nat => a + b) = 0) :=
  ⟨rfl, by decide⟩

/-- C14 (amended): for every scalar `x`, every initial value and every operator, the scalar
overload of `vec_reduce` returns `x` itself; the initial value and the operator are ignored. -/
theorem vec_reduce_scalar_returns_value {T U Op : Type} (x : T) (init : U) (op : Op) :
    vec_reduce x init op = x := by
  unfold vec_reduce
  rfl

/-- C15: on a packed value `x` of width `N`, `vec_reduce` is the left-to-right fold of `op` over
the lanes `x[0], ..., x[N-1]` in index order, starting from `init`; it returns `init` for
`N = 0`, and for `N = 4` it is `op(op(op(op(init, x[0]), x[1]), x[2]), x[3])`. -/
theorem vec_reduce_vec_fold {T : Type} {N : Nat} (x : vec T N) (init : T) (op : T → T → T) :
    vec_reduce_vec x init op = (List.ofFn x).foldl op init
    ∧ (List.ofFn x).length = N
    ∧ (∀ k : Fin N, (List.ofFn x)[k.val]? = some (x k))
    ∧ (N = 0 → vec_reduce_vec x init op = init)
    ∧ ∀ y : vec T 4, vec_reduce_vec y init op = op (op (op (op init (y 0)) (y 1)) (y 2)) (y 3) := by
  refine ⟨?_, List.length_ofFn x, ?_, ?_, ?_⟩
  · unfold vec_reduce_vec
    rw [List.ofFn_eq_map, List.foldl_map]
  · intro k
    rw [List.getElem?_ofFn]
    unfold List.ofFnNthVal
    rw [dif_pos k.isLt]
  · intro h
    subst h
    rfl
  · intro y
    rfl

/-- C16: `vec_transform` on a scalar `x` returns `f(x)`; on a packed value of width `N` it
returns a packed value of width `N` whose lane `k` is `f(x[k])`, so a lane of the result depends
only on the same lane of the input. -/
theorem vec_transform_lanes {T : Type} (f : T → T) :
    (∀ x : T, vec_transform x f = f x)
    ∧ (∀ (N : Nat) (x : vec T N) (k : Fin N), vec_transform_vec x f k = f (x k))
    ∧ (∀ (N : Nat) (x y : vec T N) (k : Fin N), x k = y k →
      vec_transform_vec x f k = vec_transform_vec y f k) := by
  refine ⟨fun _ => rfl, fun N x k => vec_transform_vec_apply x f k, ?_⟩
  intro N x y k h
  rw [vec_transform_vec_apply, vec_transform_vec_apply, h]

/-! ## The scale factor and shift invariance -/

theorem normalized_add_const {T : Type} [LinearOrderedField T] (rsqrt : T → T) (R : Nat)
    (x y : Nat → T) (c : T) (h : ∀ i, i < R → y i = x i + c) (j : Nat) (hj : j < R) :
    normalized rsqrt R y j = normalized rsqrt R x j := by
  have hR0 : (R : T) ≠ 0 := Nat.cast_ne_zero.mpr (by omega)
  have hm : row_mean R y = row_mean R x + c := by
    unfold row_mean
    rw [Finset.sum_congr rfl (fun i hi => h i (Finset.mem_range.mp hi)), Finset.sum_add_distrib,
      Finset.sum_const, Finset.card_range, nsmul_eq_mul]
    field_simp
    ring
  have hv : row_variance R y = row_variance R x := by
    unfold row_variance
    rw [hm]
    congr 1
    apply Finset.sum_congr rfl
    intro i hi
    rw [h i (Finset.mem_range.mp hi)]
    ring
  unfold normalized
  rw [hv, hm, h j hj]
  ring_nf

/-- C18: for a row served by either instantiation, the argument of the reciprocal square root is
the mean squared deviation of the row plus `1e-12`: it is at least `1e-12` and strictly
positive, for every input.  What the execution group writes depends on `rsqrt` only through its
values at arguments of at least `1e-12`. -/
theorem layernorm_rsqrt_argument {T : Type} [LinearOrderedField T] (k : instantiation)
    (shift : Nat) (rsqrt other : T → T) (block_size block_size_div relements : Nat)
    (input : Nat → T) (group : Nat) (output : Nat → T)
    (hserves : k.serves relements block_size)
    (hdiv : ∀ l, l < block_size →
      fast_div shift (group * block_size + l) block_size_div = group) :
    (∀ j, j < relements →
      k.run_group shift rsqrt block_size block_size_div relements input group output
          (group * relements + j)
        = (input (group * relements + j)
            - row_mean relements (fun i => input (group * relements + i)))
          * rsqrt (row_variance relements (fun i => input (group * relements + i))
            + 1 / 1000000000000))
    ∧ 1 / 1000000000000
        ≤ row_variance relements (fun i => input (group * relements + i)) + 1 / 1000000000000
    ∧ 0 < row_variance relements (fun i => input (group * relements + i)) + 1 / 1000000000000
    ∧ ((∀ t, 1 / 1000000000000 ≤ t → rsqrt t = other t) →
      ∀ a, k.run_group shift rsqrt block_size block_size_div relements input group output a
        = k.run_group shift other block_size block_size_div relements input group output a) := by
  have hv := row_variance_nonneg relements (fun i => input (group * relements + i))
  have he : (0 : T) < 1 / 1000000000000 := epsilon_pos
  refine ⟨?_, by linarith, by linarith, ?_⟩
  · intro j hj
    rw [run_group_row k shift rsqrt block_size block_size_div relements input group output
      hserves hdiv j hj]
    rfl
  · intro hagree a
    rw [run_group_apply k shift rsqrt block_size block_size_div relements input group output
        hserves hdiv a,
      run_group_apply k shift other block_size block_size_div relements input group output
        hserves hdiv a]
    unfold normalized
    have hs : epsilon = (1 / 1000000000000 : T) := rfl
    rw [hs, hagree _ (by linarith)]

/-- A use of C18 on the constant row `7, 7, 7`: the argument of `rsqrt` is `0 + 1e-12`, and the
group writes the same with a function that is `1 / t` from `1e-12` on and `0` below. -/
theorem layernorm_rsqrt_argument_witness :
    (instantiation.scalar.serves 3 4
      ∧ (∀ l, l < 4 → fast_div 42 (2 * 4 + l) (encode_divisor 42 4) = 2))
    ∧ row_variance 3 (fun i => (fun _ : Nat => (7 : ℚ)) (2 * 3 + i)) + 1 / 1000000000000
        = 1 / 1000000000000
    ∧ 0 < row_variance 3 (fun i => (fun _ : Nat => (7 : ℚ)) (2 * 3 + i)) + 1 / 1000000000000 :=
  ⟨⟨by decide, by decide⟩,
    by norm_num [row_variance, row_mean, Finset.sum_range_succ],
    (layernorm_rsqrt_argument instantiation.scalar 42 (fun t : ℚ => 1 / t) (fun t => t) 4
      (encode_divisor 42 4) 3 (fun _ => (7 : ℚ)) 2 (fun _ => 1) (by decide) (by decide)).2.2.1⟩

/-- C19: shift invariance.  For a row served by either instantiation, adding a constant `c` to
every element of the row does not change what the execution group writes at any position of the
row. -/
theorem layernorm_shift_invariant {T : Type} [LinearOrderedField T] (k : instantiation)
    (shift : Nat) (rsqrt : T → T) (block_size block_size_div relements : Nat)
    (input shifted : Nat → T) (c : T) (group : Nat) (output : Nat → T)
    (hserves : k.serves relements block_size)
    (hdiv : ∀ l, l < block_size →
      fast_div shift (group * block_size + l) block_size_div = group)
    (hshift : ∀ i, i < relements →
      shifted (group * relements + i) = input (group * relements + i) + c)
    (j : Nat) (hj : j < relements) :
    k.run_group shift rsqrt block_size block_size_div relements shifted group output
        (group * relements + j)
      = k.run_group shift rsqrt block_size block_size_div relements input group output
        (group * relements + j) := by
  rw [run_group_row k shift rsqrt block_size block_size_div relements shifted group output
      hserves hdiv j hj,
    run_group_row k shift rsqrt block_size block_size_div relements input group output
      hserves hdiv j hj]
  exact normalized_add_const rsqrt relements (fun i => input (group * relements + i))
    (fun i => shifted (group * relements + i)) c hshift j hj

/-- A use of C19 on the 4-wide instantiation: the rows `4, 5, 6, 7` and `104, 105, 106, 107`. -/
theorem layernorm_shift_invariant_witness :
    (instantiation.vec4.serves 4 1
      ∧ (∀ l, l < 1 → fast_div 42 (1 * 1 + l) (encode_divisor 42 1) = 1)
      ∧ (∀ i, i < 4 → (fun a : Nat => (a : ℚ) + 100) (1 * 4 + i)
          = (fun a : Nat => (a : ℚ)) (1 * 4 + i) + 100)
      ∧ 3 < 4)
    ∧ instantiation.vec4.run_group 42 (fun t : ℚ => t) 1 (encode_divisor 42 1) 4
        (fun a : Nat => (a : ℚ) + 100) 1 (fun _ => 0) (1 * 4 + 3)
      = instantiation.vec4.run_group 42 (fun t : ℚ => t) 1 (encode_divisor 42 1) 4
        (fun a : Nat => (a : ℚ)) 1 (fun _ => 0) (1 * 4 + 3) :=
  ⟨⟨by decide, by decide, fun _ _ => rfl, by decide⟩,
    layernorm_shift_invariant instantiation.vec4 42 (fun t : ℚ => t) 1 (encode_divisor 42 1) 4
      (fun a : Nat => (a : ℚ)) (fun a : Nat => (a : ℚ) + 100) 100 1 (fun _ => 0) (by decide)
      (by decide) (fun _ _ => rfl) 3 (by decide)⟩

/-! ## Zero filling of the loop operator -/

theorem to_size_t_natCast (m : Nat) (h : m < 2 ^ 64) : to_size_t (m : Int) = m := by
  unfold to_size_t
  have h2 : ((m : Int) % 2 ^ 64) = (m : Int) := by
    apply Int.emod_eq_of_lt (Int.natCast_nonneg m)
    exact_mod_cast h
  rw [h2, Int.toNat_natCast]

theorem mul_div_le_bytes (m b : Nat) : m * (b / m) ≤ b :=
  Nat.mul_div_le b m

theorem hipMemset_tail (data : Nat → Nat) (m i size : Nat) (hi : i < m)
    (hfit : m * size < 2 ^ 64) :
    hipMemset data (i * size % 2 ^ 64) 0 (size * (m - i) % 2 ^ 64)
      = fun a => if i * size ≤ a ∧ a < m * size then 0 else data a := by
  have h1 : i * size ≤ m * size := Nat.mul_le_mul_right size (Nat.le_of_lt hi)
  have h2 : size * (m - i) ≤ m * size := by
    rw [Nat.mul_comm size (m - i)]
    exact Nat.mul_le_mul_right size (Nat.sub_le m i)
  have h3 : i * size + size * (m - i) = m * size := by
    rw [Nat.mul_comm size (m - i), ← Nat.add_mul]
    congr 1
    omega
  rw [Nat.mod_eq_of_lt (lt_of_le_of_lt h1 hfit), Nat.mod_eq_of_lt (lt_of_le_of_lt h2 hfit)]
  unfold hipMemset
  rw [h3]

theorem set_zero_outputs_eq (self : gpu_loop) (m i : Nat) (hm : self.max_iter_num = (m : Int))
    (hi : i < m) (hm63 : m < 2 ^ 63) (outs : List loop_output)
    (hb : ∀ out, out ∈ outs → out.bytes < 2 ^ 64) :
    self.set_zero_outputs ((m : Int) - (i : Int)) (i : Int) outs
      = some (outs.map (fun out => { out with
          data := fun a =>
            if i * (out.bytes / m) ≤ a ∧ a < m * (out.bytes / m) then 0 else out.data a })) := by
  have hm64 : m < 2 ^ 64 := lt_trans hm63 (by norm_num)
  have hsm : to_size_t self.max_iter_num = m := by rw [hm, to_size_t_natCast m hm64]
  have hsi : to_size_t (i : Int) = i := to_size_t_natCast i (by omega)
  have hse : to_size_t ((m : Int) - (i : Int)) = m - i := by
    have e : ((m : Int) - (i : Int)) = ((m - i : Nat) : Int) := by
      rw [Int.ofNat_sub (Nat.le_of_lt hi)]
    rw [e, to_size_t_natCast (m - i) (by omega)]
  induction outs with
  | nil => rfl
  | cons out rest ih =>
    have hrest := ih (fun o ho => hb o (List.mem_cons_of_mem out ho))
    have hout : out.bytes < 2 ^ 64 := hb out (List.mem_cons_self out rest)
    have hne : ¬ to_size_t self.max_iter_num = 0 := by
      rw [hsm]
      omega
    simp only [gpu_loop.set_zero_outputs, hne, if_false, hrest, List.map_cons]
    rw [hsm, hsi, hse, hipMemset_tail out.data m i (out.bytes / m) hi
      (lt_of_le_of_lt (mul_div_le_bytes m out.bytes) hout)]

/-- C20: `gpu_loop::set_zero` leaves the outputs as they are when `iter >= max_iter_num`, in
particular for `max_iter_num = 0` and `iter >= 0`, where no division is reached.  For
`0 <= iter < max_iter_num` (with `max_iter_num` an `int64_t` and the sizes `std::size_t`) it sets,
in every output of `b` bytes and with `size = b / max_iter_num`, exactly the bytes of
`[iter * size, max_iter_num * size)` to zero and leaves every other byte unchanged; the range
lies within `[0, b]` and is the tail `[iter * size, b)` when `max_iter_num` divides `b`. -/
theorem set_zero_zeroes_tail (self : gpu_loop) (outs : List loop_output) :
    (∀ iter : Int, iter ≥ self.max_iter_num → self.set_zero outs iter = some outs)
    ∧ (∀ iter : Int, 0 ≤ iter → self.max_iter_num = 0 → self.set_zero outs iter = some outs)
    ∧ (∀ m i : Nat, self.max_iter_num = (m : Int) → i < m → m < 2 ^ 63 →
      (∀ out, out ∈ outs → out.bytes < 2 ^ 64) →
      self.set_zero outs (i : Int)
        = some (outs.map (fun out => { out with
            data := fun a =>
              if i * (out.bytes / m) ≤ a ∧ a < m * (out.bytes / m) then 0 else out.data a }))
      ∧ ∀ out, out ∈ outs →
        i * (out.bytes / m) ≤ m * (out.bytes / m)
        ∧ m * (out.bytes / m) ≤ out.bytes
        ∧ (m ∣ out.bytes → m * (out.bytes / m) = out.bytes)) := by
  refine ⟨?_, ?_, ?_⟩
  · intro iter h
    unfold gpu_loop.set_zero
    rw [if_pos h]
  · intro iter h0 hmax
    unfold gpu_loop.set_zero
    rw [if_pos (by rw [hmax]; exact h0)]
  · intro m i hm hi hm63 hb
    constructor
    · unfold gpu_loop.set_zero
      have hlt : ¬ ((i : Int) ≥ self.max_iter_num) := by
        rw [hm]
        exact_mod_cast Nat.not_le.mpr hi
      rw [if_neg hlt]
      simp only [hm]
      exact set_zero_outputs_eq self m i hm hi hm63 outs hb
    · intro out _
      exact ⟨Nat.mul_le_mul_right _ (Nat.le_of_lt hi), mul_div_le_bytes m out.bytes,
        fun hdvd => Nat.mul_div_cancel' hdvd⟩

/-- A use of C20: `max_iter_num = 4`, `iter = 1` and one output of 10 bytes, all `7`:
`size = 2`, the bytes 2 to 7 become zero, the bytes 0, 1, 8 and 9 stay. -/
theorem set_zero_zeroes_tail_witness :
    (gpu_loop.set_zero { max_iter_num := 4 } [{ bytes := 10, data := fun _ => 7 }] 1).map
        (fun outs => outs.map (fun out => (List.range out.bytes).map out.data))
      = some [[7, 7, 0, 0, 0, 0, 0, 0, 7, 7]] := by
  have h := ((set_zero_zeroes_tail { max_iter_num := 4 }
    [{ bytes := 10, data := fun _ => 7 }]).2.2 4 1 rfl (by decide) (by decide)
    (fun out hout => by
      rw [List.mem_singleton] at hout
      subst hout
      decide)).1
  have h2 : (((1 : Nat) : Int)) = (1 : Int) := rfl
  rw [h2] at h
  rw [h]
  decide

end migraphx
